import Mathlib

set_option maxRecDepth 40000
set_option maxHeartbeats 1000000

/-!
Verification of the accounting/workflow core of the gmail-telegram-bot
(src/bot.py) against its specification.

Monetary values (PostgreSQL `DECIMAL(10,2)` columns, Python `Decimal`) are
modelled as rationals; `round_decimal` is Python's
`Decimal.quantize(Decimal('0.01'), rounding=ROUND_HALF_UP)` (round to two
decimal places, ties away from zero; all values in this program are
non-negative).  Emails are modelled as lists of characters.  The five
database tables are association lists keyed by their integer primary keys;
SQL conditional updates (`UPDATE ... WHERE <pred> RETURNING ...`) are
modelled as `findWhere` (the returned row) together with `updWhere`
(the in-place update of every matching row).
-/

namespace Bot

/-- `round_decimal` (bot.py:182): round to 2 decimal places, ROUND_HALF_UP
(ties away from zero). -/
def round_decimal (x : ℚ) : ℚ :=
  if 0 ≤ x then (((x * 100 + 1/2).floor : ℤ) : ℚ) / 100
  else -((((-x * 100 + 1/2).floor : ℤ) : ℚ) / 100)

/-- `WITHDRAWAL_FEE_PERCENT` (bot.py:41). -/
def WITHDRAWAL_FEE_PERCENT : ℚ := 5

/-- `WITHDRAWAL_FEE_MIN` (bot.py:42). -/
def WITHDRAWAL_FEE_MIN : ℚ := 5

/-- `calculate_withdrawal_fee` (bot.py:254-261): round the gross amount,
take `max(amount*5%, 5)`, round the fee, subtract from the (rounded)
amount and round again.  Returns `(fee, final_amount)`. -/
def calculate_withdrawal_fee (amount : ℚ) : ℚ × ℚ :=
  let amount := round_decimal amount
  let fee_percent := amount * (WITHDRAWAL_FEE_PERCENT / 100)
  let fee := max fee_percent WITHDRAWAL_FEE_MIN
  let fee := round_decimal fee
  let final_amount := round_decimal (amount - fee)
  (fee, final_amount)

/-- `calc_rate` (bot.py:335-347), as a function of the user's
`approved_gmail` count (the SQL read is done by the caller in the model). -/
def calc_rate (approved : ℕ) : ℚ :=
  if approved ≥ 100 then 30
  else if approved ≥ 50 then 25
  else 20

/-! ### Email normalization (bot.py:186-197, 302-309) -/

/-- Python `str.strip()` on a character list. -/
def stripWs (s : List Char) : List Char :=
  ((s.dropWhile Char.isWhitespace).reverse.dropWhile Char.isWhitespace).reverse

/-- Split a list at the first occurrence of `c` (Python `split(c, 1)`),
returning the parts before and after it, or `none` if `c` is absent. -/
def splitAtFirst (c : Char) : List Char → Option (List Char × List Char)
  | [] => none
  | x :: xs =>
    if x = c then some ([], xs)
    else (splitAtFirst c xs).map (fun r => (x :: r.1, r.2))

def gmailDomain : List Char := ['g', 'm', 'a', 'i', 'l', '.', 'c', 'o', 'm']

/-- `normalize_email` (bot.py:186-197): lowercase and strip, split at the
first `@`; on the gmail.com domain drop the dots of the local part and the
`+` suffix tag.  Callers pass emails already validated by `validate_email`
(which guarantees an `@`; on an `@`-less input Python would raise, here the
lowered input is returned unchanged, a case no claim exercises). -/
def normalize_email (e : List Char) : List Char :=
  if e = [] then e
  else
    let e' := stripWs (e.map Char.toLower)
    match splitAtFirst '@' e' with
    | none => e'
    | some (lo, domain) =>
      let lo2 :=
        if domain = gmailDomain then
          let noDots := lo.filter (fun c => c ≠ '.')
          match splitAtFirst '+' noDots with
          | some r => r.1
          | none => noDots
        else lo
      lo2 ++ '@' :: domain

/-- SQL `LOWER(TRIM(email))`, applied by `check_duplicate_email` to the
stored `email` column. -/
def lowerTrim (s : List Char) : List Char := stripWs (s.map Char.toLower)

/-! ### Data model (init_db, bot.py:65-179)

Table rows keep the columns the verified claims are about; purely textual
columns (password, rejection reasons, payment destinations, usernames) and
the blocked/notification flags are elided — no claim mentions them and no
modelled operation reads them. -/

inductive St where
  | pending
  | approved
  | rejected
deriving DecidableEq

/-- A `users` row (bot.py:70-86). -/
structure UserR where
  balance : ℚ
  totalGmail : ℕ
  approvedGmail : ℕ
  channelClaimed : Bool
deriving DecidableEq

/-- A `gmail` submissions row (bot.py:89-100); keyed by its SERIAL id. -/
structure SubR where
  userId : ℕ
  email : List Char
  reward : ℚ
  status : St
  submitDate : ℕ
  reviewDate : Option ℕ
deriving DecidableEq

/-- A `withdrawals` row (bot.py:103-115); keyed by its SERIAL id. -/
structure WdR where
  userId : ℕ
  amount : ℚ
  fee : ℚ
  finalAmount : ℚ
  status : St
  requestDate : ℕ
  processedDate : Option ℕ
deriving DecidableEq

/-- A `referrals` row (bot.py:118-126).  `UNIQUE(referred_id)` makes the
referred user the natural key, so the association list is keyed by
`referred_id`. -/
structure RefR where
  referrerId : ℕ
  reward : ℚ
  rewarded : Bool
deriving DecidableEq

/-- The database state: each table as an association list keyed by its
primary key (`user_id` for users, the SERIAL `id` for gmail/withdrawals,
`referred_id` for referrals).  The audit log is append-only and read by no
operation, so it is not part of the state. -/
structure DB where
  users : List (ℕ × UserR)
  gmail : List (ℕ × SubR)
  withdrawals : List (ℕ × WdR)
  referrals : List (ℕ × RefR)
deriving DecidableEq

/-- `SELECT ... WHERE <q> LIMIT 1`: the first row satisfying `q`. -/
def findWhere {α : Type} (l : List (ℕ × α)) (q : ℕ → α → Bool) : Option (ℕ × α) :=
  l.find? (fun p => q p.1 p.2)

/-- `UPDATE ... SET <f> WHERE <q>`: rewrite every row satisfying `q`. -/
def updWhere {α : Type} (l : List (ℕ × α)) (q : ℕ → α → Bool) (f : α → α) : List (ℕ × α) :=
  l.map (fun p => if q p.1 p.2 then (p.1, f p.2) else p)

/-- `SELECT ... WHERE key=%s`: the first row with the given primary key. -/
def getRow {α : Type} (l : List (ℕ × α)) (k : ℕ) : Option α :=
  (l.find? (fun p => p.1 == k)).map Prod.snd

/-- WHERE clause `id=%s AND status='pending'` on the gmail table. -/
def subPendQ (gid : ℕ) (k : ℕ) (s : SubR) : Bool :=
  k == gid && decide (s.status = St.pending)

/-- WHERE clause `user_id=%s AND status='pending'` on the gmail table. -/
def userPendQ (uid : ℕ) (_ : ℕ) (s : SubR) : Bool :=
  s.userId == uid && decide (s.status = St.pending)

/-- WHERE clause `id=%s AND status='pending'` on the withdrawals table. -/
def wdPendQ (wid : ℕ) (k : ℕ) (w : WdR) : Bool :=
  k == wid && decide (w.status = St.pending)

/-- WHERE clause `referred_id=%s AND rewarded=0`. -/
def refUnrewQ (uid : ℕ) (k : ℕ) (r : RefR) : Bool :=
  k == uid && !r.rewarded

/-- WHERE clause `user_id=%s` (any table keyed by user id). -/
def userKeyQ {α : Type} (uid : ℕ) (k : ℕ) (_ : α) : Bool :=
  k == uid

/-- WHERE clause `user_id=%s AND balance >= %s`. -/
def balGeQ (uid : ℕ) (amt : ℚ) (k : ℕ) (u : UserR) : Bool :=
  k == uid && decide (amt ≤ u.balance)

/-- WHERE clause `user_id=%s AND channel_claimed=0`. -/
def chanUnclaimedQ (uid : ℕ) (k : ℕ) (u : UserR) : Bool :=
  k == uid && !u.channelClaimed

/-- `SELECT COUNT(*) FROM gmail WHERE user_id=%s AND status='approved'`
(bot.py:1234, 1352). -/
def approvedQ (uid : ℕ) (p : ℕ × SubR) : Bool :=
  p.2.userId == uid && decide (p.2.status = St.approved)

def approvedCount (db : DB) (uid : ℕ) : ℕ :=
  db.gmail.countP (approvedQ uid)

/-- Workflow outcomes (§7 error taxonomy, as the handlers realise them). -/
inductive Outcome where
  | ok
  | alreadyProcessed
  | insufficientBalance
  | duplicateItem
  | belowMinimum
  | notFound
  | noPending
deriving DecidableEq

/-- Ledger events: one entry per balance mutation an operation performs. -/
inductive Ev where
  | subCredit (uid : ℕ) (amt : ℚ)
  | refCredit (referred referrer : ℕ) (amt : ℚ)
  | wdDebit (uid : ℕ) (amt : ℚ)
  | wdRefund (uid : ℕ) (amt : ℚ)
  | chBonus (uid : ℕ)
deriving DecidableEq

/-- Handler-visible actions in program order: explicit `conn.commit()`
calls, the commit `get_db`'s context manager issues when the `with` block
exits normally (bot.py:52-63), and `notify_user` / admin `send_message`
dispatches.  Conversation replies to the acting admin/user and audit-log
writes are not notifications and are not traced. -/
inductive HAct where
  | commit
  | notifyReferrer (rid : ℕ)
  | notifyUser (uid : ℕ)
  | notifyAdmin
deriving DecidableEq

/-- Result of one handler invocation: the committed database, the reported
outcome, the balance-mutation events and the handler-action trace. -/
structure R where
  db : DB
  outcome : Outcome
  events : List Ev
  hacts : List HAct
deriving DecidableEq

/-! ### Operations (the handlers of bot.py, one pure function each) -/

/-- `check_duplicate_email` (bot.py:302-309): normalize the probe email,
compare it against `LOWER(TRIM(email))` of the stored rows, return
`(user_id, status)` of the first hit. -/
def check_duplicate_email (gmail : List (ℕ × SubR)) (email : List Char) :
    Option (ℕ × St) :=
  let normalized := normalize_email email
  (gmail.find? (fun p => decide (lowerTrim p.2.email = normalized))).map
    (fun p => (p.2.userId, p.2.status))

/-- `receive_email` + `receive_password` (bot.py:1677-1791): duplicate check
on the normalized email; the insert itself is additionally subject to the
`UNIQUE(email)` constraint on the raw stored email (`psycopg2.IntegrityError`,
bot.py:1777).  On success the reward is `calc_rate` of the user's
`approved_gmail` count read at this instant (bot.py:1735), frozen onto the
row, and `total_gmail` is incremented.  Validation, cooldown and blocked
checks happen before this fragment and are preconditions of the caller. -/
def create_submission (uid : ℕ) (email : List Char) (now newId : ℕ)
    (db : DB) : R :=
  match check_duplicate_email db.gmail email with
  | some _ => ⟨db, .duplicateItem, [], []⟩
  | none =>
    if db.gmail.any (fun p => decide (p.2.email = email)) then
      ⟨db, .duplicateItem, [], []⟩
    else
      let reward := calc_rate
        (match getRow db.users uid with
         | some u => u.approvedGmail
         | none => 0)
      let row : SubR := ⟨uid, email, reward, St.pending, now, none⟩
      ⟨{ db with
          gmail := db.gmail ++ [(newId, row)],
          users := updWhere db.users (userKeyQ uid)
            (fun u => { u with totalGmail := u.totalGmail + 1 }) },
        .ok, [], [.commit, .notifyAdmin]⟩

/-- The `approve_` callback branch (bot.py:1206-1284).
`UPDATE gmail SET status='approved', review_date=... WHERE id=%s AND
status='pending' RETURNING ...`; nothing returned means already processed.
Otherwise: count the user's approved rows (after the update), credit the
rounded stored reward and bump `approved_gmail`; if the count is exactly 1,
conditionally flip the referral row (`WHERE referred_id=%s AND rewarded=0
RETURNING ...`) and credit the referrer — notifying the referrer *before*
`conn.commit()` (bot.py:1262 vs 1268). -/
def approve_submission (now gid : ℕ) (db : DB) : R :=
  match findWhere db.gmail (subPendQ gid) with
  | none => ⟨db, .alreadyProcessed, [], [.commit]⟩
  | some (_, sub) =>
    let uid := sub.userId
    let reward := round_decimal sub.reward
    let db1 : DB := { db with
      gmail := updWhere db.gmail (subPendQ gid)
        (fun s => { s with status := St.approved, reviewDate := some now }) }
    let isFirst := approvedCount db1 uid == 1
    let db2 : DB := { db1 with
      users := updWhere db1.users (userKeyQ uid)
        (fun u => { u with
          balance := u.balance + reward,
          approvedGmail := u.approvedGmail + 1 }) }
    if isFirst then
      match findWhere db2.referrals (refUnrewQ uid) with
      | some (_, ref) =>
        let refReward := round_decimal ref.reward
        let db3 : DB := { db2 with
          referrals := updWhere db2.referrals (refUnrewQ uid)
            (fun r => { r with rewarded := true }),
          users := updWhere db2.users (userKeyQ ref.referrerId)
            (fun u => { u with balance := u.balance + refReward }) }
        ⟨db3, .ok, [.subCredit uid reward, .refCredit uid ref.referrerId refReward],
          [.notifyReferrer ref.referrerId, .commit, .notifyUser uid, .commit]⟩
      | none => ⟨db2, .ok, [.subCredit uid reward], [.commit, .notifyUser uid, .commit]⟩
    else ⟨db2, .ok, [.subCredit uid reward], [.commit, .notifyUser uid, .commit]⟩

/-- The `reject_` callback branch (bot.py:1287-1330): same conditional
single-row transition to `rejected`; no balance effect. -/
def reject_submission (now gid : ℕ) (db : DB) : R :=
  match findWhere db.gmail (subPendQ gid) with
  | none => ⟨db, .alreadyProcessed, [], [.commit]⟩
  | some (_, sub) =>
    ⟨{ db with
        gmail := updWhere db.gmail (subPendQ gid)
          (fun s => { s with status := St.rejected, reviewDate := some now }) },
      .ok, [], [.commit, .notifyUser sub.userId, .commit]⟩

/-- The `approve_all_` callback branch (bot.py:1334-1422): snapshot the
pending rows, compute `is_first_approval` as "no approved rows *before* the
batch", batch-update `WHERE user_id=%s AND status='pending'`, apply one
balance credit of the summed (rounded) rewards, then the same conditional
referral-reward step; the referrer is again notified before the commit. -/
def approve_all (now uid : ℕ) (db : DB) : R :=
  let pend := db.gmail.filter (fun p => userPendQ uid p.1 p.2)
  if pend.isEmpty then ⟨db, .noPending, [], [.commit]⟩
  else
    let isFirst := approvedCount db uid == 0
    let totalReward := (pend.map (fun p => round_decimal p.2.reward)).sum
    let cnt := pend.length
    let db1 : DB := { db with
      gmail := updWhere db.gmail (userPendQ uid)
        (fun s => { s with status := St.approved, reviewDate := some now }),
      users := updWhere db.users (userKeyQ uid)
        (fun u => { u with
          balance := u.balance + totalReward,
          approvedGmail := u.approvedGmail + cnt }) }
    if isFirst then
      match findWhere db1.referrals (refUnrewQ uid) with
      | some (_, ref) =>
        let refReward := round_decimal ref.reward
        let db2 : DB := { db1 with
          referrals := updWhere db1.referrals (refUnrewQ uid)
            (fun r => { r with rewarded := true }),
          users := updWhere db1.users (userKeyQ ref.referrerId)
            (fun u => { u with balance := u.balance + refReward }) }
        ⟨db2, .ok, [.subCredit uid totalReward, .refCredit uid ref.referrerId refReward],
          [.notifyReferrer ref.referrerId, .commit, .notifyUser uid, .commit]⟩
      | none => ⟨db1, .ok, [.subCredit uid totalReward], [.commit, .notifyUser uid, .commit]⟩
    else ⟨db1, .ok, [.subCredit uid totalReward], [.commit, .notifyUser uid, .commit]⟩

/-- The `reject_all_` callback branch (bot.py:1425-1472). -/
def reject_all (now uid : ℕ) (db : DB) : R :=
  let cnt := (db.gmail.filter (fun p => userPendQ uid p.1 p.2)).length
  if cnt == 0 then ⟨db, .noPending, [], [.commit]⟩
  else
    ⟨{ db with
        gmail := updWhere db.gmail (userPendQ uid)
          (fun s => { s with status := St.rejected, reviewDate := some now }) },
      .ok, [], [.commit, .notifyUser uid, .commit]⟩

/-- `receive_withdraw_amt` (bot.py:1862-1978), from the minimum-amount
check onwards.  The daily-cap check (`can_withdraw_today`) and the
method/destination lookup are time- and profile-dependent preconditions of
the caller and are not part of the ledger fragment.  After the pre-read
check against the rounded balance, the debit is the conditional
`UPDATE users SET balance=balance-%s WHERE user_id=%s AND balance >= %s
RETURNING balance` and the row insert happens in the same transaction. -/
def request_withdrawal (uid : ℕ) (amount : ℚ) (now newId : ℕ) (db : DB) : R :=
  if amount < 100 then ⟨db, .belowMinimum, [], []⟩
  else
    let feeFinal := calculate_withdrawal_fee amount
    match getRow db.users uid with
    | none => ⟨db, .notFound, [], [.commit]⟩
    | some u =>
      let balance := round_decimal u.balance
      if balance < amount then ⟨db, .insufficientBalance, [], [.commit]⟩
      else
        match findWhere db.users (balGeQ uid amount) with
        | none => ⟨db, .insufficientBalance, [], [.commit]⟩
        | some _ =>
          let row : WdR := ⟨uid, amount, feeFinal.1, feeFinal.2, St.pending, now, none⟩
          ⟨{ db with
              users := updWhere db.users (balGeQ uid amount)
                (fun v => { v with balance := v.balance - amount }),
              withdrawals := db.withdrawals ++ [(newId, row)] },
            .ok, [.wdDebit uid amount], [.commit, .commit, .notifyAdmin]⟩

/-- The `aw_` callback branch (bot.py:1511-1551): conditional
pending→approved transition setting `processed_date`; **no** balance
change. -/
def approve_withdrawal (now wid : ℕ) (db : DB) : R :=
  match findWhere db.withdrawals (wdPendQ wid) with
  | none => ⟨db, .alreadyProcessed, [], [.commit]⟩
  | some (_, w) =>
    ⟨{ db with
        withdrawals := updWhere db.withdrawals (wdPendQ wid)
          (fun v => { v with status := St.approved, processedDate := some now }) },
      .ok, [], [.commit, .notifyUser w.userId, .commit]⟩

/-- The `rw_` callback branch (bot.py:1554-1597): conditional
pending→rejected transition setting `processed_date`, plus the refund
`UPDATE users SET balance=balance+%s` of the rounded gross amount. -/
def reject_withdrawal (now wid : ℕ) (db : DB) : R :=
  match findWhere db.withdrawals (wdPendQ wid) with
  | none => ⟨db, .alreadyProcessed, [], [.commit]⟩
  | some (_, w) =>
    let amt := round_decimal w.amount
    ⟨{ db with
        withdrawals := updWhere db.withdrawals (wdPendQ wid)
          (fun v => { v with status := St.rejected, processedDate := some now }),
        users := updWhere db.users (userKeyQ w.userId)
          (fun v => { v with balance := v.balance + amt }) },
      .ok, [.wdRefund w.userId amt], [.commit, .notifyUser w.userId, .commit]⟩

/-- The `claim_channel` callback branch (bot.py:525-549): one-shot ₹1 bonus
via `UPDATE users SET balance=balance+1, channel_claimed=1 WHERE user_id=%s
AND channel_claimed=0 RETURNING user_id` (membership check passed). -/
def claim_channel (uid : ℕ) (db : DB) : R :=
  match findWhere db.users (chanUnclaimedQ uid) with
  | none => ⟨db, .alreadyProcessed, [], [.commit]⟩
  | some _ =>
    ⟨{ db with
        users := updWhere db.users (chanUnclaimedQ uid)
          (fun u => { u with balance := u.balance + 1, channelClaimed := true }) },
      .ok, [.chBonus uid], [.commit, .commit]⟩

/-- `statusTitle` models Python's `duplicate_status.title()` on the three
values the `status` column takes. -/
def statusTitle : St → String
  | .pending => "Pending"
  | .approved => "Approved"
  | .rejected => "Rejected"

/-- The duplicate-email report of `receive_email` (bot.py:1693-1710): the
message text depends on whether the caller owns the existing row, and
embeds the existing row's status. -/
def duplicate_reply (callerId dupUser : ℕ) (dupStatus : St) : String :=
  let msg :=
    if dupUser = callerId then "You already submitted this email."
    else "This email has already been submitted by another user."
  "❌ **Duplicate Email!**\n\n" ++ msg ++ "\nStatus: " ++ statusTitle dupStatus
    ++ "\n\n/cancel to abort or send a different email"

/-! ### The ledger as a transition system -/

/-- One external invocation of a ledger-affecting handler, with the
adversarially chosen clock value and fresh SERIAL id where relevant. -/
inductive Op where
  | createSub (uid : ℕ) (email : List Char) (now newId : ℕ)
  | approveSub (now gid : ℕ)
  | rejectSub (now gid : ℕ)
  | approveAll (now uid : ℕ)
  | rejectAll (now uid : ℕ)
  | requestWd (uid : ℕ) (amount : ℚ) (now newId : ℕ)
  | approveWd (now wid : ℕ)
  | rejectWd (now wid : ℕ)
  | claimChannel (uid : ℕ)

def step : Op → DB → R
  | .createSub uid email now newId => create_submission uid email now newId
  | .approveSub now gid => approve_submission now gid
  | .rejectSub now gid => reject_submission now gid
  | .approveAll now uid => approve_all now uid
  | .rejectAll now uid => reject_all now uid
  | .requestWd uid amount now newId => request_withdrawal uid amount now newId
  | .approveWd now wid => approve_withdrawal now wid
  | .rejectWd now wid => reject_withdrawal now wid
  | .claimChannel uid => claim_channel uid

/-- Run a sequence of handler invocations, collecting all ledger events. -/
def run : List Op → DB → DB × List Ev
  | [], db => (db, [])
  | op :: ops, db =>
    let r := step op db
    let t := run ops r.db
    (t.1, r.events ++ t.2)

/-- Is there an unrewarded referral row for referred user `u` (a row the
conditional `UPDATE referrals ... WHERE referred_id=%s AND rewarded=0`
would hit)? -/
def unrewEx (db : DB) (u : ℕ) : Bool :=
  (findWhere db.referrals (refUnrewQ u)).isSome

/-- How many referral-credit events for referred user `u` a trace holds. -/
def refCredits (u : ℕ) (evs : List Ev) : ℕ :=
  evs.countP (fun e =>
    match e with
    | .refCredit r _ _ => r == u
    | _ => false)

/-- All stored monetary values are non-negative. -/
def moneyOk (db : DB) : Prop :=
  (∀ p ∈ db.users, 0 ≤ p.2.balance) ∧ (∀ p ∈ db.gmail, 0 ≤ p.2.reward)
    ∧ (∀ p ∈ db.withdrawals, 0 ≤ p.2.amount) ∧ (∀ p ∈ db.referrals, 0 ≤ p.2.reward)

def isCommit : HAct → Bool
  | .commit => true
  | _ => false

/-- Any notification dispatch (referrer, submitter/user, or admin). -/
def isNotify : HAct → Bool
  | .commit => false
  | _ => true

/-- A notification to the acted-on user or to the admin — every dispatch
except the referral-reward one. -/
def isUserNotify : HAct → Bool
  | .notifyUser _ => true
  | .notifyAdmin => true
  | _ => false

/-- No selected action occurs before the first commit of a handler trace. -/
def noneBeforeCommit (sel : HAct → Bool) (l : List HAct) : Bool :=
  (l.takeWhile (fun a => !isCommit a)).all (fun a => !sel a)

/-- A rational is at currency precision (an exact multiple of 0.01) —
the value set of the `DECIMAL(10,2)` columns. -/
@[reducible] def cents (x : ℚ) : Prop := (x * 100).den = 1

/-! ### Concrete states used by witnesses and counterexamples -/

def emailA : List Char :=
  ['a', '@', 'g', 'm', 'a', 'i', 'l', '.', 'c', 'o', 'm']

/-- `"j.ohn@gmail.com"` — a stored email containing a separator dot. -/
def emailDotted : List Char :=
  ['j', '.', 'o', 'h', 'n', '@', 'g', 'm', 'a', 'i', 'l', '.', 'c', 'o', 'm']

/-- `"john@gmail.com"` — the dotless alias of `emailDotted`. -/
def emailPlain : List Char :=
  ['j', 'o', 'h', 'n', '@', 'g', 'm', 'a', 'i', 'l', '.', 'c', 'o', 'm']

/-- User 1 (referred by user 2, one pending submission of reward 20,
nothing approved yet) and user 2 (the referrer). -/
def refDb : DB :=
  ⟨[(1, ⟨0, 1, 0, false⟩), (2, ⟨0, 0, 0, false⟩)],
   [(10, ⟨1, emailA, 20, St.pending, 0, none⟩)],
   [],
   [(1, ⟨2, 5, false⟩)]⟩

/-- User 1 with balance 150 and one pending withdrawal of gross 100. -/
def wdDb : DB :=
  ⟨[(1, ⟨150, 0, 0, false⟩)],
   [],
   [(7, ⟨1, 100, 5, 95, St.pending, 0, none⟩)],
   []⟩

/-- One stored submission whose email contains a separator dot, plus a
second user about to submit the dotless alias. -/
def dupDb : DB :=
  ⟨[(1, ⟨0, 1, 0, false⟩), (2, ⟨0, 0, 0, false⟩)],
   [(1, ⟨1, emailDotted, 20, St.pending, 0, none⟩)],
   [],
   []⟩

/-! ### Arithmetic facts about `round_decimal` -/

theorem ratFloor_eq_floor (q : ℚ) : q.floor = ⌊q⌋ := by
  rw [Rat.floor_def', Rat.floor_def]

theorem cents_iff {x : ℚ} : cents x ↔ ∃ n : ℤ, x = (n : ℚ) / 100 := by
  constructor
  · intro h
    refine ⟨(x * 100).num, ?_⟩
    have h1 : (((x * 100).num : ℤ) : ℚ) = x * 100 := (Rat.den_eq_one_iff _).mp h
    have h100 : (100 : ℚ) ≠ 0 := by norm_num
    field_simp
    linarith [h1]
  · rintro ⟨n, rfl⟩
    have : ((n : ℚ) / 100) * 100 = (n : ℚ) := by
      field_simp
    unfold cents
    rw [this]
    exact Rat.den_intCast n

theorem round_decimal_eq_self {x : ℚ} (h : Bot.cents x) :
    Bot.round_decimal x = x := by
  obtain ⟨n, rfl⟩ := cents_iff.mp h
  have h100 : (100 : ℚ) ≠ 0 := by norm_num
  have hmul : (n : ℚ) / 100 * 100 = (n : ℚ) := by field_simp
  have hneg : -((n : ℚ) / 100) * 100 = ((-n : ℤ) : ℚ) := by push_cast; field_simp
  have hhalf : ⌊(1 : ℚ)/2⌋ = 0 := by norm_num
  unfold round_decimal
  split
  · rw [ratFloor_eq_floor, hmul, Int.floor_int_add, hhalf]
    norm_num
  · rw [ratFloor_eq_floor, hneg, Int.floor_int_add, hhalf]
    push_cast
    ring

theorem round_decimal_cents (x : ℚ) : Bot.cents (Bot.round_decimal x) := by
  unfold round_decimal
  split
  · exact cents_iff.mpr ⟨(x * 100 + 1/2).floor, rfl⟩
  · exact cents_iff.mpr ⟨-(-x * 100 + 1/2).floor, by push_cast; ring⟩

theorem round_decimal_nonneg {x : ℚ} (h : 0 ≤ x) :
    0 ≤ Bot.round_decimal x := by
  unfold round_decimal
  rw [if_pos h, ratFloor_eq_floor]
  have : (0 : ℤ) ≤ ⌊x * 100 + 1/2⌋ := by
    rw [Int.le_floor]
    push_cast
    nlinarith
  positivity

theorem cents_sub {x y : ℚ} (hx : Bot.cents x) (hy : Bot.cents y) :
    Bot.cents (x - y) := by
  obtain ⟨n, rfl⟩ := cents_iff.mp hx
  obtain ⟨m, rfl⟩ := cents_iff.mp hy
  exact cents_iff.mpr ⟨n - m, by push_cast; ring⟩

/-! ### Association-list lemmas about `findWhere`, `updWhere`, `getRow` -/

theorem findWhere_mem {α : Type} {l : List (ℕ × α)} {q : ℕ → α → Bool} {p : ℕ × α}
    (h : Bot.findWhere l q = some p) : p ∈ l ∧ q p.1 p.2 = true := by
  unfold findWhere at h
  refine ⟨List.mem_of_find?_eq_some h, ?_⟩
  have h2 := List.find?_some h
  simpa using h2

theorem getRow_cons_pos {α : Type} {k₀ : ℕ} {a : α} {t : List (ℕ × α)} {k : ℕ}
    (h : k₀ = k) : Bot.getRow ((k₀, a) :: t) k = some a := by
  unfold getRow
  rw [List.find?_cons_of_pos _ (by simp [h])]
  rfl

theorem getRow_cons_neg {α : Type} {k₀ : ℕ} {a : α} {t : List (ℕ × α)} {k : ℕ}
    (h : k₀ ≠ k) : Bot.getRow ((k₀, a) :: t) k = Bot.getRow t k := by
  unfold getRow
  rw [List.find?_cons_of_neg _ (by simp [h])]

theorem findWhere_updWhere_self {α : Type} (l : List (ℕ × α)) (q : ℕ → α → Bool) (f : α → α)
    (h : ∀ k a, q k a = true → q k (f a) = false) :
    Bot.findWhere (Bot.updWhere l q f) q = none := by
  induction l with
  | nil => rfl
  | cons p t ih =>
    obtain ⟨pk, pa⟩ := p
    show Bot.findWhere (Bot.updWhere ((pk, pa) :: t) q f) q = none
    unfold updWhere findWhere
    simp only [List.map_cons]
    by_cases hq : q pk pa
    · rw [if_pos hq, List.find?_cons_of_neg _ (by simp [h _ _ hq])]
      exact ih
    · rw [if_neg hq, List.find?_cons_of_neg _ (by simp [hq])]
      exact ih

theorem getRow_updWhere_keyQ {α : Type} (l : List (ℕ × α)) (key : ℕ) (f : α → α) :
    Bot.getRow (Bot.updWhere l (Bot.userKeyQ key) f) key = (Bot.getRow l key).map f := by
  induction l with
  | nil => rfl
  | cons p t ih =>
    obtain ⟨pk, pa⟩ := p
    show Bot.getRow (Bot.updWhere ((pk, pa) :: t) (Bot.userKeyQ key) f) key = _
    unfold updWhere userKeyQ
    simp only [List.map_cons]
    by_cases hk : pk = key
    · rw [if_pos (by simp [hk]), getRow_cons_pos hk, getRow_cons_pos hk]
      rfl
    · rw [if_neg (by simp [hk]), getRow_cons_neg hk, getRow_cons_neg hk]
      exact ih

theorem getRow_updWhere_ne {α : Type} (l : List (ℕ × α)) (q : ℕ → α → Bool) (f : α → α)
    (k : ℕ) (h : ∀ a, q k a = false) :
    Bot.getRow (Bot.updWhere l q f) k = Bot.getRow l k := by
  induction l with
  | nil => rfl
  | cons p t ih =>
    obtain ⟨pk, pa⟩ := p
    show Bot.getRow (Bot.updWhere ((pk, pa) :: t) q f) k = _
    unfold updWhere
    simp only [List.map_cons]
    by_cases hk : pk = k
    · have hq : q pk pa = false := by rw [hk]; exact h pa
      rw [if_neg (by simp [hq]), getRow_cons_pos hk, getRow_cons_pos hk]
    · by_cases hq : q pk pa
      · rw [if_pos hq, getRow_cons_neg hk, getRow_cons_neg hk]
        exact ih
      · rw [if_neg hq, getRow_cons_neg hk, getRow_cons_neg hk]
        exact ih

theorem getRow_updWhere_keyP {α : Type} (l : List (ℕ × α)) (q : ℕ → α → Bool)
    (key : ℕ) (P : α → Bool) (f : α → α) (a : α)
    (hq : ∀ k x, q k x = (k == key && P x))
    (hg : Bot.getRow l key = some a) (hP : P a = true) :
    Bot.getRow (Bot.updWhere l q f) key = some (f a) := by
  induction l with
  | nil => simp [getRow] at hg
  | cons p t ih =>
    obtain ⟨pk, pa⟩ := p
    show Bot.getRow (Bot.updWhere ((pk, pa) :: t) q f) key = _
    unfold updWhere
    simp only [List.map_cons]
    by_cases hk : pk = key
    · have hpa : pa = a := by
        rw [getRow_cons_pos hk] at hg
        exact Option.some.inj hg
      have hqt : q pk pa = true := by
        rw [hq, hpa, hP, hk]
        simp
      rw [if_pos hqt, getRow_cons_pos hk, hpa]
    · have hg' : Bot.getRow t key = some a := by
        rw [getRow_cons_neg hk] at hg
        exact hg
      by_cases hq2 : q pk pa
      · rw [if_pos hq2, getRow_cons_neg hk]
        exact ih hg'
      · rw [if_neg hq2, getRow_cons_neg hk]
        exact ih hg'

theorem findWhere_keyP_of_getRow {α : Type} (l : List (ℕ × α)) (q : ℕ → α → Bool)
    (key : ℕ) (P : α → Bool) (a : α)
    (hq : ∀ k x, q k x = (k == key && P x))
    (hg : Bot.getRow l key = some a) (hP : P a = true) :
    Bot.findWhere l q = some (key, a) := by
  induction l with
  | nil => simp [getRow] at hg
  | cons p t ih =>
    obtain ⟨pk, pa⟩ := p
    by_cases hk : pk = key
    · have hpa : pa = a := by
        rw [getRow_cons_pos hk] at hg
        exact Option.some.inj hg
      have hqp : q pk pa = true := by
        rw [hq, hpa, hP, hk]
        simp
      unfold findWhere
      rw [List.find?_cons_of_pos _ (by simpa using hqp), hk, hpa]
    · have hg' : Bot.getRow t key = some a := by
        rw [getRow_cons_neg hk] at hg
        exact hg
      have hqp : q pk pa = false := by
        rw [hq]
        simp [hk]
      unfold findWhere
      rw [List.find?_cons_of_neg _ (by simpa using hqp)]
      exact ih hg'

theorem getRow_of_nodup_mem {α : Type} {l : List (ℕ × α)} {k : ℕ} {a : α}
    (hn : (l.map Prod.fst).Nodup) (hm : (k, a) ∈ l) : Bot.getRow l k = some a := by
  induction l with
  | nil => cases hm
  | cons p t ih =>
    rw [List.map_cons, List.nodup_cons] at hn
    cases List.mem_cons.mp hm with
    | inl h => rw [← h]; exact getRow_cons_pos rfl
    | inr h =>
      have hk : p.1 ≠ k := by
        intro he
        exact hn.1 (he ▸ List.mem_map.mpr ⟨(k, a), h, rfl⟩)
      obtain ⟨pk, pa⟩ := p
      rw [getRow_cons_neg hk]
      exact ih hn.2 h

theorem keys_eq_of_nodup {α : Type} {l : List (ℕ × α)}
    (hn : (l.map Prod.fst).Nodup) {p p' : ℕ × α}
    (hp : p ∈ l) (hp' : p' ∈ l) (hk : p.1 = p'.1) : p = p' := by
  induction l with
  | nil => cases hp
  | cons x t ih =>
    rw [List.map_cons, List.nodup_cons] at hn
    cases List.mem_cons.mp hp with
    | inl h1 =>
      cases List.mem_cons.mp hp' with
      | inl h2 => rw [h1, h2]
      | inr h2 =>
        exact absurd (List.mem_map.mpr ⟨p', h2, by rw [← hk, h1]⟩) hn.1
    | inr h1 =>
      cases List.mem_cons.mp hp' with
      | inl h2 =>
        exact absurd (List.mem_map.mpr ⟨p, h1, by rw [hk, h2]⟩) hn.1
      | inr h2 => exact ih hn.2 h1 h2

theorem countP_updWhere_eq {α : Type} (l : List (ℕ × α)) (pq : ℕ → α → Bool) (f : α → α)
    (q : ℕ × α → Bool)
    (h1 : ∀ p ∈ l, q p = true → pq p.1 p.2 = false)
    (h2 : ∀ p ∈ l, pq p.1 p.2 = true → q (p.1, f p.2) = true) :
    (Bot.updWhere l pq f).countP q = l.countP q + l.countP (fun p => pq p.1 p.2) := by
  induction l with
  | nil => rfl
  | cons p t ih =>
    have iht := ih (fun x hx => h1 x (List.mem_cons_of_mem _ hx))
      (fun x hx => h2 x (List.mem_cons_of_mem _ hx))
    obtain ⟨pk, pa⟩ := p
    show (Bot.updWhere ((pk, pa) :: t) pq f).countP q = _
    unfold updWhere at iht ⊢
    simp only [List.map_cons, List.countP_cons]
    by_cases hpq : pq pk pa
    · have hqp : q (pk, pa) = false := by
        cases hq2 : q (pk, pa)
        · rfl
        · have := h1 (pk, pa) (List.mem_cons_self _ _) hq2
          simp only at this
          rw [this] at hpq
          cases hpq
      have hq3 : q (pk, f pa) = true := by
        have := h2 (pk, pa) (List.mem_cons_self _ _) hpq
        simpa using this
      rw [if_pos hpq]
      simp [List.countP_cons, hq3, hqp, hpq]
      simp only [List.countP_map] at iht
      omega
    · have hpq' : pq pk pa = false := by
        cases hx : pq pk pa
        · rfl
        · exact absurd hx hpq
      rw [if_neg hpq]
      simp [List.countP_cons, hpq']
      simp only [List.countP_map] at iht
      omega

theorem updWhere_forall {α : Type} {l : List (ℕ × α)} {q : ℕ → α → Bool} {f : α → α}
    {P : α → Prop}
    (hl : ∀ p ∈ l, P p.2) (hf : ∀ k a, q k a = true → P a → P (f a)) :
    ∀ p ∈ Bot.updWhere l q f, P p.2 := by
  intro p hp
  unfold updWhere at hp
  obtain ⟨x, hx, he⟩ := List.mem_map.mp hp
  by_cases hq : q x.1 x.2
  · rw [if_pos hq] at he
    rw [← he]
    exact hf _ _ hq (hl x hx)
  · rw [if_neg hq] at he
    rw [← he]
    exact hl x hx

theorem findWhere_updWhere_keyne {α : Type} (l : List (ℕ × α))
    (q q' : ℕ → α → Bool) (f : α → α) (key key' : ℕ) (P P' : α → Bool)
    (hq : ∀ k x, q k x = (k == key && P x))
    (hq' : ∀ k x, q' k x = (k == key' && P' x))
    (hne : key ≠ key') :
    Bot.findWhere (Bot.updWhere l q' f) q = Bot.findWhere l q := by
  induction l with
  | nil => rfl
  | cons p t ih =>
    obtain ⟨pk, pa⟩ := p
    show Bot.findWhere (Bot.updWhere ((pk, pa) :: t) q' f) q = _
    unfold updWhere findWhere at ih ⊢
    simp only [List.map_cons]
    by_cases hk' : pk = key'
    · have hkk : pk ≠ key := by
        rw [hk']
        exact fun h => hne h.symm
      have hqf : ∀ x, q pk x = false := fun x => by simp [hq, hkk]
      by_cases hu : q' pk pa
      · rw [if_pos hu, List.find?_cons_of_neg _ (by simp [hqf]),
          List.find?_cons_of_neg _ (by simp [hqf])]
        exact ih
      · rw [if_neg hu, List.find?_cons_of_neg _ (by simp [hqf]),
          List.find?_cons_of_neg _ (by simp [hqf])]
        exact ih
    · have hu : q' pk pa = false := by simp [hq', hk']
      rw [if_neg (by simp [hu])]
      by_cases hqp : q pk pa
      · rw [List.find?_cons_of_pos _ (by simpa using hqp),
          List.find?_cons_of_pos _ (by simpa using hqp)]
      · rw [List.find?_cons_of_neg _ (by simpa using hqp),
          List.find?_cons_of_neg _ (by simpa using hqp)]
        exact ih

/-! ### C5: the fee calculator -/

theorem round_decimal_eval {x : ℚ} (hx : 0 ≤ x) :
    Bot.round_decimal x = ((⌊x * 100 + 1/2⌋ : ℤ) : ℚ) / 100 := by
  unfold round_decimal
  rw [if_pos hx, ratFloor_eq_floor]

/-- C5 (counterexample): as universally stated over all gross amounts the
round-trip claim is false.  At gross = 100.005 (finer than currency
precision) the calculator yields fee 5.00 and net 95.01, and
fee + net = 100.01 ≠ 100.005. -/
theorem c5_fee_roundtrip_cex :
    Bot.calculate_withdrawal_fee (20001/200) = (5, 9501/100)
    ∧ (Bot.calculate_withdrawal_fee (20001/200)).1
        + (Bot.calculate_withdrawal_fee (20001/200)).2 ≠ (20001/200 : ℚ) := by
  have h0 : Bot.round_decimal (20001/200) = 10001/100 := by
    rw [round_decimal_eval (by norm_num)]
    norm_num
  have h1 : (10001/100 : ℚ) * (Bot.WITHDRAWAL_FEE_PERCENT / 100) = 10001/2000 := by
    unfold WITHDRAWAL_FEE_PERCENT
    norm_num
  have h2 : max ((10001 : ℚ)/2000) Bot.WITHDRAWAL_FEE_MIN = 10001/2000 := by
    unfold WITHDRAWAL_FEE_MIN
    exact max_eq_left (by norm_num)
  have h3 : Bot.round_decimal (10001/2000) = 5 := by
    rw [round_decimal_eval (by norm_num)]
    norm_num
  have h4 : Bot.round_decimal (10001/100 - 5) = 9501/100 := by
    rw [round_decimal_eval (by norm_num)]
    norm_num
  have e1 : Bot.calculate_withdrawal_fee (20001/200) = (5, 9501/100) := by
    unfold calculate_withdrawal_fee
    rw [h0]
    dsimp only
    rw [h1, h2, h3, h4]
  refine ⟨e1, ?_⟩
  rw [e1]
  norm_num

/-- C5 (amended): for every gross amount at currency precision (a multiple
of 0.01 — the value set of the `DECIMAL(10,2)` balance the gross is checked
against), the Fee Calculator returns
`fee = round_half_up (max (gross * 5%) 5)` and `net = gross - fee`
(the final rounding of the net is the identity there), so
`fee + net` reconstructs the gross exactly. -/
theorem c5_fee_roundtrip (g : ℚ) (hg : Bot.cents g) :
    Bot.calculate_withdrawal_fee g
      = (Bot.round_decimal (max (g * (Bot.WITHDRAWAL_FEE_PERCENT / 100)) Bot.WITHDRAWAL_FEE_MIN),
         g - Bot.round_decimal (max (g * (Bot.WITHDRAWAL_FEE_PERCENT / 100)) Bot.WITHDRAWAL_FEE_MIN))
    ∧ (Bot.calculate_withdrawal_fee g).1 + (Bot.calculate_withdrawal_fee g).2 = g := by
  have h1 : round_decimal g = g := round_decimal_eq_self hg
  have hnet :
      round_decimal (g - round_decimal (max (g * (WITHDRAWAL_FEE_PERCENT / 100)) WITHDRAWAL_FEE_MIN))
        = g - round_decimal (max (g * (WITHDRAWAL_FEE_PERCENT / 100)) WITHDRAWAL_FEE_MIN) :=
    round_decimal_eq_self (cents_sub hg (round_decimal_cents _))
  have hmain :
      calculate_withdrawal_fee g
        = (round_decimal (max (g * (WITHDRAWAL_FEE_PERCENT / 100)) WITHDRAWAL_FEE_MIN),
           g - round_decimal (max (g * (WITHDRAWAL_FEE_PERCENT / 100)) WITHDRAWAL_FEE_MIN)) := by
    unfold calculate_withdrawal_fee
    rw [h1]
    dsimp only
    rw [hnet]
  exact ⟨hmain, by rw [hmain]; ring⟩

/-- C5 (witness): gross 100 is at currency precision; the calculator gives
fee 5 and net 95 and the round-trip holds there. -/
theorem c5_fee_roundtrip_witness :
    Bot.calculate_withdrawal_fee 100 = (5, 95)
    ∧ (Bot.calculate_withdrawal_fee 100).1 + (Bot.calculate_withdrawal_fee 100).2 = 100 := by
  have hc : Bot.cents 100 := by
    show ((100 : ℚ) * 100).den = 1
    norm_num
  have hfee : Bot.round_decimal (max ((100 : ℚ) * (Bot.WITHDRAWAL_FEE_PERCENT / 100)) Bot.WITHDRAWAL_FEE_MIN) = 5 := by
    unfold WITHDRAWAL_FEE_PERCENT WITHDRAWAL_FEE_MIN
    rw [show (100 : ℚ) * (5 / 100) = 5 by norm_num, max_self,
      round_decimal_eval (by norm_num)]
    norm_num
  have h := (c5_fee_roundtrip 100 hc).1
  rw [hfee] at h
  refine ⟨by rw [h]; norm_num, (c5_fee_roundtrip 100 hc).2⟩

/-! ### Pointwise shapes of the key-guarded WHERE clauses -/

theorem subPendQ_shape (gid : ℕ) :
    ∀ k x, Bot.subPendQ gid k x = (k == gid && decide (x.status = St.pending)) :=
  fun _ _ => rfl

theorem wdPendQ_shape (wid : ℕ) :
    ∀ k x, Bot.wdPendQ wid k x = (k == wid && decide (x.status = St.pending)) :=
  fun _ _ => rfl

theorem refUnrewQ_shape (uid : ℕ) :
    ∀ k x, Bot.refUnrewQ uid k x = (k == uid && !x.rewarded) :=
  fun _ _ => rfl

theorem balGeQ_shape (uid : ℕ) (amt : ℚ) :
    ∀ k x, Bot.balGeQ uid amt k x = (k == uid && decide (amt ≤ x.balance)) :=
  fun _ _ => rfl

theorem chanUnclaimedQ_shape (uid : ℕ) :
    ∀ k x, Bot.chanUnclaimedQ uid k x = (k == uid && !x.channelClaimed) :=
  fun _ _ => rfl

/-! ### Characterisation of the approve-submission handler -/

/-- When the conditional update hits no pending row with this id, the
handler is a no-op reporting already-processed. -/
theorem approve_none (now gid : ℕ) (db : DB)
    (h : Bot.findWhere db.gmail (Bot.subPendQ gid) = none) :
    Bot.approve_submission now gid db
      = ⟨db, Outcome.alreadyProcessed, [], [HAct.commit]⟩ := by
  unfold approve_submission
  rw [h]

/-- On the success path the handler reports ok, rewrites exactly the
pending rows with this id to approved, and leaves the withdrawals table
untouched. -/
theorem approve_pending_parts (now gid : ℕ) (db : DB) (sub : SubR)
    (hfw : Bot.findWhere db.gmail (Bot.subPendQ gid) = some (gid, sub)) :
    (Bot.approve_submission now gid db).outcome = Outcome.ok
    ∧ (Bot.approve_submission now gid db).db.gmail
        = Bot.updWhere db.gmail (Bot.subPendQ gid)
            (fun s => { s with status := St.approved, reviewDate := some now })
    ∧ (Bot.approve_submission now gid db).db.withdrawals = db.withdrawals := by
  unfold approve_submission
  rw [hfw]
  dsimp only
  split
  · split
    · exact ⟨rfl, rfl, rfl⟩
    · exact ⟨rfl, rfl, rfl⟩
  · exact ⟨rfl, rfl, rfl⟩

/-- On the success path the owner's row is credited the rounded stored
reward and its approved counter is incremented — whether or not the
referral branch fires (the referrer is a different user). -/
theorem approve_pending_user (now gid : ℕ) (db : DB) (sub : SubR) (u : UserR)
    (hfw : Bot.findWhere db.gmail (Bot.subPendQ gid) = some (gid, sub))
    (hu : Bot.getRow db.users sub.userId = some u)
    (href : ∀ p ∈ db.referrals, p.1 = sub.userId → p.2.referrerId ≠ sub.userId) :
    Bot.getRow (Bot.approve_submission now gid db).db.users sub.userId
      = some { u with balance := u.balance + Bot.round_decimal sub.reward,
                      approvedGmail := u.approvedGmail + 1 } := by
  unfold approve_submission
  rw [hfw]
  dsimp only
  split
  · split
    · rename_i rk ref heq
      have hm := findWhere_mem heq
      have hk : rk = sub.userId := by
        have h2 := hm.2
        unfold refUnrewQ at h2
        simp only [Bool.and_eq_true, beq_iff_eq] at h2
        exact h2.1
      have hne : ref.referrerId ≠ sub.userId := href (rk, ref) hm.1 hk
      rw [getRow_updWhere_ne _ (userKeyQ ref.referrerId) _ sub.userId
        (fun a => by
          unfold userKeyQ
          simp only [beq_eq_false_iff_ne, ne_eq]
          exact fun h => hne h.symm)]
      rw [getRow_updWhere_keyQ, hu]
      rfl
    · rw [getRow_updWhere_keyQ, hu]
      rfl
  · rw [getRow_updWhere_keyQ, hu]
    rfl

/-- After a successful approval no pending row with this id remains, so a
repeat of the conditional update hits nothing. -/
theorem approve_pending_gone (now gid : ℕ) (db : DB) (sub : SubR)
    (hfw : Bot.findWhere db.gmail (Bot.subPendQ gid) = some (gid, sub)) :
    Bot.findWhere (Bot.approve_submission now gid db).db.gmail (Bot.subPendQ gid) = none := by
  rw [(approve_pending_parts now gid db sub hfw).2.1]
  apply findWhere_updWhere_self
  intro k a _
  unfold subPendQ
  simp

/-! ### C1: approving one submission pays exactly once -/

/-- C1: for a pending submission, `ApproveSubmission` transitions it
pending→approved, credits exactly the stored reward to the owner's balance
and increments the owner's approved counter once; the immediately repeated
call on the same id (and any call on an id with no pending row, i.e. one
already approved or rejected) is a no-op that reports already-processed
and leaves the database — hence every balance — unchanged.  Repeated
approvals therefore pay out exactly one reward. -/
theorem c1_approve_exactly_once
    (now gid : ℕ) (db : DB) (sub : SubR) (u : UserR)
    (hn : (db.gmail.map Prod.fst).Nodup)
    (hmem : (gid, sub) ∈ db.gmail)
    (hp : sub.status = St.pending)
    (hu : Bot.getRow db.users sub.userId = some u)
    (hr : Bot.cents sub.reward)
    (href : ∀ p ∈ db.referrals, p.1 = sub.userId → p.2.referrerId ≠ sub.userId) :
    ((Bot.approve_submission now gid db).outcome = Outcome.ok
      ∧ Bot.getRow (Bot.approve_submission now gid db).db.gmail gid
          = some { sub with status := St.approved, reviewDate := some now }
      ∧ Bot.getRow (Bot.approve_submission now gid db).db.users sub.userId
          = some { u with balance := u.balance + sub.reward,
                          approvedGmail := u.approvedGmail + 1 }
      ∧ ∀ now₂, Bot.approve_submission now₂ gid (Bot.approve_submission now gid db).db
          = ⟨(Bot.approve_submission now gid db).db, Outcome.alreadyProcessed, [], [HAct.commit]⟩)
    ∧ ∀ (db₂ : DB) (now₂ : ℕ), Bot.findWhere db₂.gmail (Bot.subPendQ gid) = none →
        Bot.approve_submission now₂ gid db₂
          = ⟨db₂, Outcome.alreadyProcessed, [], [HAct.commit]⟩ := by
  have hg : Bot.getRow db.gmail gid = some sub := getRow_of_nodup_mem hn hmem
  have hfw : Bot.findWhere db.gmail (Bot.subPendQ gid) = some (gid, sub) :=
    findWhere_keyP_of_getRow _ _ gid (fun s => decide (s.status = St.pending)) sub
      (subPendQ_shape gid) hg (by simp [hp])
  have hparts := approve_pending_parts now gid db sub hfw
  have hbal := approve_pending_user now gid db sub u hfw hu href
  rw [round_decimal_eq_self hr] at hbal
  refine ⟨⟨hparts.1, ?_, hbal, ?_⟩, fun db₂ now₂ h => approve_none now₂ gid db₂ h⟩
  · rw [hparts.2.1]
    exact getRow_updWhere_keyP _ _ gid (fun s => decide (s.status = St.pending)) _ sub
      (subPendQ_shape gid) hg (by simp [hp])
  · intro now₂
    exact approve_none now₂ gid _ (approve_pending_gone now gid db sub hfw)

/-- C1 (witness): on the concrete referred-user state, approving pending
submission 10 succeeds and the repeated approval is the no-op the theorem
describes. -/
theorem c1_approve_exactly_once_witness :
    (Bot.approve_submission 3 10 Bot.refDb).outcome = Outcome.ok
    ∧ Bot.approve_submission 4 10 (Bot.approve_submission 3 10 Bot.refDb).db
        = ⟨(Bot.approve_submission 3 10 Bot.refDb).db, Outcome.alreadyProcessed, [], [HAct.commit]⟩ := by
  have h := c1_approve_exactly_once 3 10 refDb ⟨1, emailA, 20, St.pending, 0, none⟩
    ⟨0, 1, 0, false⟩
    (by with_unfolding_all decide) (by with_unfolding_all decide) rfl
    (by with_unfolding_all decide) (by with_unfolding_all decide)
    (by with_unfolding_all decide)
  exact ⟨h.1.1, h.1.2.2.2 4⟩

/-! ### C7: rejecting a withdrawal refunds the gross, approving refunds nothing -/

/-- A rejected conditional update on the withdrawals table is a no-op. -/
theorem reject_wd_none (now wid : ℕ) (db : DB)
    (h : Bot.findWhere db.withdrawals (Bot.wdPendQ wid) = none) :
    Bot.reject_withdrawal now wid db
      = ⟨db, Outcome.alreadyProcessed, [], [HAct.commit]⟩ := by
  unfold reject_withdrawal
  rw [h]

/-- C7: on a pending withdrawal, `ApproveWithdrawal` only rewrites that
row's status and processed date — the users, gmail and referrals tables
are untouched, so every balance is unchanged — while `RejectWithdrawal`
adds back exactly the stored gross amount to the owner's balance (leaving
every other user untouched) as part of the same pending→rejected
transition, and a repeat of the rejection is a no-op, so the refund
happens once. -/
theorem c7_withdrawal_review_frame
    (now wid : ℕ) (db : DB) (w : WdR) (u : UserR)
    (hn : (db.withdrawals.map Prod.fst).Nodup)
    (hm : (wid, w) ∈ db.withdrawals)
    (hp : w.status = St.pending)
    (hu : Bot.getRow db.users w.userId = some u)
    (hc : Bot.cents w.amount) :
    ((Bot.approve_withdrawal now wid db).db.users = db.users
      ∧ (Bot.approve_withdrawal now wid db).db.gmail = db.gmail
      ∧ (Bot.approve_withdrawal now wid db).db.referrals = db.referrals
      ∧ Bot.getRow (Bot.approve_withdrawal now wid db).db.withdrawals wid
          = some { w with status := St.approved, processedDate := some now }
      ∧ (Bot.approve_withdrawal now wid db).outcome = Outcome.ok)
    ∧ ((Bot.reject_withdrawal now wid db).outcome = Outcome.ok
      ∧ Bot.getRow (Bot.reject_withdrawal now wid db).db.users w.userId
          = some { u with balance := u.balance + w.amount }
      ∧ (∀ k, k ≠ w.userId →
          Bot.getRow (Bot.reject_withdrawal now wid db).db.users k = Bot.getRow db.users k)
      ∧ Bot.getRow (Bot.reject_withdrawal now wid db).db.withdrawals wid
          = some { w with status := St.rejected, processedDate := some now }
      ∧ ∀ now₂, Bot.reject_withdrawal now₂ wid (Bot.reject_withdrawal now wid db).db
          = ⟨(Bot.reject_withdrawal now wid db).db, Outcome.alreadyProcessed, [], [HAct.commit]⟩) := by
  have hg : Bot.getRow db.withdrawals wid = some w := getRow_of_nodup_mem hn hm
  have hfw : Bot.findWhere db.withdrawals (Bot.wdPendQ wid) = some (wid, w) :=
    findWhere_keyP_of_getRow _ _ wid (fun x => decide (x.status = St.pending)) w
      (wdPendQ_shape wid) hg (by simp [hp])
  have hrow : Bot.getRow (Bot.updWhere db.withdrawals (Bot.wdPendQ wid)
        (fun v => { v with status := St.approved, processedDate := some now })) wid
      = some { w with status := St.approved, processedDate := some now } :=
    getRow_updWhere_keyP _ _ wid (fun x => decide (x.status = St.pending)) _ w
      (wdPendQ_shape wid) hg (by simp [hp])
  have hrowR : Bot.getRow (Bot.updWhere db.withdrawals (Bot.wdPendQ wid)
        (fun v => { v with status := St.rejected, processedDate := some now })) wid
      = some { w with status := St.rejected, processedDate := some now } :=
    getRow_updWhere_keyP _ _ wid (fun x => decide (x.status = St.pending)) _ w
      (wdPendQ_shape wid) hg (by simp [hp])
  constructor
  · have hmain : Bot.approve_withdrawal now wid db
        = ⟨{ db with
               withdrawals := Bot.updWhere db.withdrawals (Bot.wdPendQ wid)
                 (fun v => { v with status := St.approved, processedDate := some now }) },
           Outcome.ok, [], [HAct.commit, HAct.notifyUser w.userId, HAct.commit]⟩ := by
      unfold approve_withdrawal
      rw [hfw]
    rw [hmain]
    exact ⟨rfl, rfl, rfl, hrow, rfl⟩
  · have hmain : Bot.reject_withdrawal now wid db
        = ⟨{ db with
              withdrawals := Bot.updWhere db.withdrawals (Bot.wdPendQ wid)
                (fun v => { v with status := St.rejected, processedDate := some now }),
              users := Bot.updWhere db.users (Bot.userKeyQ w.userId)
                (fun v => { v with balance := v.balance + Bot.round_decimal w.amount }) },
           Outcome.ok, [Ev.wdRefund w.userId (Bot.round_decimal w.amount)],
           [HAct.commit, HAct.notifyUser w.userId, HAct.commit]⟩ := by
      unfold reject_withdrawal
      rw [hfw]
    rw [hmain]
    refine ⟨rfl, ?_, ?_, hrowR, ?_⟩
    · show Bot.getRow (Bot.updWhere db.users (Bot.userKeyQ w.userId)
        (fun v => { v with balance := v.balance + Bot.round_decimal w.amount })) w.userId = _
      rw [getRow_updWhere_keyQ, hu, round_decimal_eq_self hc]
      rfl
    · intro k hk
      show Bot.getRow (Bot.updWhere db.users (Bot.userKeyQ w.userId)
        (fun v => { v with balance := v.balance + Bot.round_decimal w.amount })) k
          = Bot.getRow db.users k
      exact getRow_updWhere_ne _ (userKeyQ w.userId) _ k
        (fun a => by
          unfold userKeyQ
          simp only [beq_eq_false_iff_ne, ne_eq]
          exact hk)
    · intro now₂
      apply reject_wd_none
      show Bot.findWhere (Bot.updWhere db.withdrawals (Bot.wdPendQ wid)
        (fun v => { v with status := St.rejected, processedDate := some now })) (Bot.wdPendQ wid) = none
      apply findWhere_updWhere_self
      intro k a _
      unfold wdPendQ
      simp

/-- C7 (witness): on the concrete state with pending withdrawal 7 of gross
100 owned by user 1 (balance 150), approving changes no user row and
rejecting credits user 1 with exactly 100. -/
theorem c7_withdrawal_review_frame_witness :
    (Bot.approve_withdrawal 9 7 Bot.wdDb).db.users = Bot.wdDb.users
    ∧ Bot.getRow (Bot.reject_withdrawal 9 7 Bot.wdDb).db.users 1
        = some { balance := (150 : ℚ) + 100, totalGmail := 0, approvedGmail := 0,
                 channelClaimed := false } := by
  have h := c7_withdrawal_review_frame 9 7 wdDb ⟨1, 100, 5, 95, St.pending, 0, none⟩
    ⟨150, 0, 0, false⟩
    (by with_unfolding_all decide) (by with_unfolding_all decide) rfl
    (by with_unfolding_all decide) (by with_unfolding_all decide)
  exact ⟨h.1.1, h.2.2.1⟩

/-! ### C3: withdrawal request — conditional debit, all or nothing -/

/-- C3: with the user row present (at currency precision, as the
`DECIMAL(10,2)` schema guarantees) and the gross at least the minimum 100:
if the balance is below the gross the request fails with insufficient
balance and returns the database unchanged — no Withdrawal row, no debit;
otherwise the single returned state both debits exactly the gross from the
user's balance and appends the new pending Withdrawal row (with the fee
and net of the Fee Calculator), and the gmail/referrals tables are
untouched.  There is no state with only one of the two effects. -/
theorem c3_withdrawal_all_or_nothing
    (uid : ℕ) (amount : ℚ) (now newId : ℕ) (db : DB) (u : UserR)
    (hu : Bot.getRow db.users uid = some u)
    (hc : Bot.cents u.balance)
    (hmin : 100 ≤ amount) :
    (u.balance < amount →
      Bot.request_withdrawal uid amount now newId db
        = ⟨db, Outcome.insufficientBalance, [], [HAct.commit]⟩)
    ∧ (amount ≤ u.balance →
      (Bot.request_withdrawal uid amount now newId db).outcome = Outcome.ok
      ∧ (Bot.request_withdrawal uid amount now newId db).db.withdrawals
          = db.withdrawals ++ [(newId,
              ⟨uid, amount, (Bot.calculate_withdrawal_fee amount).1,
               (Bot.calculate_withdrawal_fee amount).2, St.pending, now, none⟩)]
      ∧ Bot.getRow (Bot.request_withdrawal uid amount now newId db).db.users uid
          = some { u with balance := u.balance - amount }
      ∧ (Bot.request_withdrawal uid amount now newId db).db.gmail = db.gmail
      ∧ (Bot.request_withdrawal uid amount now newId db).db.referrals = db.referrals) := by
  have hnlt : ¬amount < 100 := not_lt.mpr hmin
  constructor
  · intro hlt
    unfold request_withdrawal
    rw [if_neg hnlt, hu]
    dsimp only
    rw [round_decimal_eq_self hc, if_pos hlt]
  · intro hle
    have hnlt2 : ¬u.balance < amount := not_lt.mpr hle
    have hfw : Bot.findWhere db.users (Bot.balGeQ uid amount) = some (uid, u) :=
      findWhere_keyP_of_getRow _ _ uid (fun x => decide (amount ≤ x.balance)) u
        (balGeQ_shape uid amount) hu (by simp [hle])
    have hmain : Bot.request_withdrawal uid amount now newId db
        = ⟨{ db with
              users := Bot.updWhere db.users (Bot.balGeQ uid amount)
                (fun v => { v with balance := v.balance - amount }),
              withdrawals := db.withdrawals ++ [(newId,
                ⟨uid, amount, (Bot.calculate_withdrawal_fee amount).1,
                 (Bot.calculate_withdrawal_fee amount).2, St.pending, now, none⟩)] },
            Outcome.ok, [Ev.wdDebit uid amount], [HAct.commit, HAct.commit, HAct.notifyAdmin]⟩ := by
      unfold request_withdrawal
      rw [if_neg hnlt, hu]
      dsimp only
      rw [round_decimal_eq_self hc, if_neg hnlt2, hfw]
    rw [hmain]
    refine ⟨rfl, rfl, ?_, rfl, rfl⟩
    show Bot.getRow (Bot.updWhere db.users (Bot.balGeQ uid amount)
      (fun v => { v with balance := v.balance - amount })) uid = _
    exact getRow_updWhere_keyP _ _ uid (fun x => decide (amount ≤ x.balance)) _ u
      (balGeQ_shape uid amount) hu (by simp [hle])

/-- C3 (witness): user 1 with balance 150 — requesting 200 fails and
changes nothing, requesting 100 debits to 50 and creates row 8. -/
theorem c3_withdrawal_all_or_nothing_witness :
    Bot.request_withdrawal 1 200 4 8 Bot.wdDb
      = ⟨Bot.wdDb, Outcome.insufficientBalance, [], [HAct.commit]⟩
    ∧ (Bot.request_withdrawal 1 100 4 8 Bot.wdDb).outcome = Outcome.ok
    ∧ Bot.getRow (Bot.request_withdrawal 1 100 4 8 Bot.wdDb).db.users 1
        = some { balance := (150 : ℚ) - 100, totalGmail := 0, approvedGmail := 0,
                 channelClaimed := false } := by
  have h200 := c3_withdrawal_all_or_nothing 1 200 4 8 wdDb ⟨150, 0, 0, false⟩
    (by with_unfolding_all decide) (by with_unfolding_all decide)
    (by norm_num)
  have h100 := c3_withdrawal_all_or_nothing 1 100 4 8 wdDb ⟨150, 0, 0, false⟩
    (by with_unfolding_all decide) (by with_unfolding_all decide)
    (by norm_num)
  refine ⟨h200.1 (by norm_num), (h100.2 (by norm_num)).1, (h100.2 (by norm_num)).2.2.1⟩

/-! ### C8: the reward is frozen at creation -/

/-- C8: `CreateSubmission` stores on the new row a reward computed by
`calc_rate` from the owner's approved count *at that instant* (base rate
below 50 approvals, middle from 50, top from 100 — see
`c8_reward_frozen_witness` for the tier values); and `ApproveSubmission`,
run later against *any* database state in which that submission is still
pending — however the owner's approved count has changed in between —
credits exactly the stored reward, never a recomputed one. -/
theorem c8_reward_frozen
    (uid : ℕ) (email : List Char) (now newId : ℕ) (db : DB) (u : UserR)
    (hu : Bot.getRow db.users uid = some u)
    (hnd : Bot.check_duplicate_email db.gmail email = none)
    (hnu : ∀ p ∈ db.gmail, ¬p.2.email = email) :
    ((Bot.create_submission uid email now newId db).db.gmail
        = db.gmail ++ [(newId, ⟨uid, email, Bot.calc_rate u.approvedGmail, St.pending, now, none⟩)]
      ∧ (Bot.create_submission uid email now newId db).outcome = Outcome.ok)
    ∧ ∀ (now₂ gid : ℕ) (db₂ : DB) (sub : SubR) (v : UserR),
        (db₂.gmail.map Prod.fst).Nodup → (gid, sub) ∈ db₂.gmail →
        sub.status = St.pending →
        Bot.getRow db₂.users sub.userId = some v → Bot.cents sub.reward →
        (∀ p ∈ db₂.referrals, p.1 = sub.userId → p.2.referrerId ≠ sub.userId) →
        Bot.getRow (Bot.approve_submission now₂ gid db₂).db.users sub.userId
          = some { v with balance := v.balance + sub.reward,
                          approvedGmail := v.approvedGmail + 1 } := by
  constructor
  · have hany : db.gmail.any (fun p => decide (p.2.email = email)) = false := by
      rw [List.any_eq_false]
      intro p hp
      simp only [decide_eq_true_eq]
      exact hnu p hp
    have hmain : Bot.create_submission uid email now newId db
        = ⟨{ db with
              gmail := db.gmail ++ [(newId, ⟨uid, email, Bot.calc_rate u.approvedGmail,
                St.pending, now, none⟩)],
              users := Bot.updWhere db.users (Bot.userKeyQ uid)
                (fun v => { v with totalGmail := v.totalGmail + 1 }) },
           Outcome.ok, [], [HAct.commit, HAct.notifyAdmin]⟩ := by
      unfold create_submission
      rw [hnd]
      dsimp only
      rw [hany, hu]
      dsimp only
      rfl
    rw [hmain]
    exact ⟨rfl, rfl⟩
  · intro now₂ gid db₂ sub v hn hmem hp hv hr href
    have hg : Bot.getRow db₂.gmail gid = some sub := getRow_of_nodup_mem hn hmem
    have hfw : Bot.findWhere db₂.gmail (Bot.subPendQ gid) = some (gid, sub) :=
      findWhere_keyP_of_getRow _ _ gid (fun s => decide (s.status = St.pending)) sub
        (subPendQ_shape gid) hg (by simp [hp])
    have hbal := approve_pending_user now₂ gid db₂ sub v hfw hv href
    rw [round_decimal_eq_self hr] at hbal
    exact hbal

/-- C8 (witness): the tier thresholds of `calc_rate`, a concrete creation
freezing reward 20 (user 1 of `dupDb` has 0 approvals), and a concrete
later approval crediting exactly the frozen reward 20 on `refDb` — whose
owner row could have any approved count without changing the credit. -/
theorem c8_reward_frozen_witness :
    Bot.calc_rate 49 = 20 ∧ Bot.calc_rate 50 = 25 ∧ Bot.calc_rate 100 = 30
    ∧ (Bot.create_submission 2 Bot.emailPlain 5 2 Bot.dupDb).db.gmail
        = Bot.dupDb.gmail ++ [(2, ⟨2, Bot.emailPlain, Bot.calc_rate 0, St.pending, 5, none⟩)]
    ∧ Bot.getRow (Bot.approve_submission 3 10 Bot.refDb).db.users 1
        = some { balance := (0 : ℚ) + 20, totalGmail := 1, approvedGmail := 0 + 1,
                 channelClaimed := false } := by
  have h := c8_reward_frozen 2 emailPlain 5 2 dupDb ⟨0, 0, 0, false⟩
    (by with_unfolding_all decide) (by with_unfolding_all decide)
    (by with_unfolding_all decide)
  refine ⟨by with_unfolding_all decide, by with_unfolding_all decide,
    by with_unfolding_all decide, h.1.1, ?_⟩
  exact h.2 3 10 refDb ⟨1, emailA, 20, St.pending, 0, none⟩ ⟨0, 1, 0, false⟩
    (by with_unfolding_all decide) (by with_unfolding_all decide) rfl
    (by with_unfolding_all decide) (by with_unfolding_all decide)
    (by with_unfolding_all decide)

/-! ### C2: the referral reward fires at most once -/

/-- After the conditional flip (`... WHERE referred_id=%s AND rewarded=0`)
no unrewarded row for that referred user remains. -/
theorem unrewEx_flip_self (l : List (ℕ × RefR)) (uid : ℕ) :
    Bot.findWhere (Bot.updWhere l (Bot.refUnrewQ uid) (fun r => { r with rewarded := true }))
      (Bot.refUnrewQ uid) = none :=
  findWhere_updWhere_self _ _ _ (fun k a _ => by
    unfold refUnrewQ
    simp)

/-- The conditional flip for one referred user leaves the unrewarded rows
of every other referred user untouched. -/
theorem unrewEx_flip_ne (l : List (ℕ × RefR)) (uid u : ℕ) (h : u ≠ uid) :
    Bot.findWhere (Bot.updWhere l (Bot.refUnrewQ uid) (fun r => { r with rewarded := true }))
      (Bot.refUnrewQ u) = Bot.findWhere l (Bot.refUnrewQ u) :=
  findWhere_updWhere_keyne _ _ _ _ u uid _ _ (refUnrewQ_shape u) (refUnrewQ_shape uid) h

/-- One handler invocation either emits no referral credit for `u` and
preserves the unrewarded-row indicator, or emits exactly one — in which
case an unrewarded row existed before and none survives. -/
theorem step_ref_char (op : Op) (db : DB) (u : ℕ) :
    (Bot.refCredits u (Bot.step op db).events = 0
      ∧ Bot.unrewEx (Bot.step op db).db u = Bot.unrewEx db u)
    ∨ (Bot.refCredits u (Bot.step op db).events = 1
      ∧ Bot.unrewEx db u = true ∧ Bot.unrewEx (Bot.step op db).db u = false) := by
  cases op with
  | createSub uid email now newId =>
    simp only [step]
    unfold create_submission
    split
    · left
      exact ⟨rfl, rfl⟩
    · split
      · left
        exact ⟨rfl, rfl⟩
      · left
        exact ⟨rfl, rfl⟩
  | approveSub now gid =>
    simp only [step]
    unfold approve_submission
    split
    · left
      exact ⟨rfl, rfl⟩
    · dsimp only
      split
      · split
        · rename_i fstk subv hfweq hfirst xopt rk ref heq
          by_cases hu : subv.userId = u
          · subst hu
            right
            refine ⟨?_, ?_, ?_⟩
            · simp [refCredits]
            · unfold unrewEx
              rw [heq]
              rfl
            · unfold unrewEx
              rw [unrewEx_flip_self]
              rfl
          · left
            have hbe : (subv.userId == u) = false := beq_eq_false_iff_ne.mpr hu
            refine ⟨?_, ?_⟩
            · simp [refCredits, hbe]
            · unfold unrewEx
              rw [unrewEx_flip_ne _ _ _ (fun h => hu h.symm)]
        · left
          exact ⟨rfl, rfl⟩
      · left
        exact ⟨rfl, rfl⟩
  | rejectSub now gid =>
    simp only [step]
    unfold reject_submission
    split
    · left
      exact ⟨rfl, rfl⟩
    · left
      exact ⟨rfl, rfl⟩
  | approveAll now uid =>
    simp only [step, approve_all]
    split
    · left
      exact ⟨rfl, rfl⟩
    · split
      · split
        · rename_i hne hfirst xopt rk ref heq
          by_cases hu : uid = u
          · subst hu
            right
            refine ⟨?_, ?_, ?_⟩
            · simp [refCredits]
            · unfold unrewEx
              rw [heq]
              rfl
            · unfold unrewEx
              rw [unrewEx_flip_self]
              rfl
          · left
            have hbe : (uid == u) = false := beq_eq_false_iff_ne.mpr hu
            refine ⟨?_, ?_⟩
            · simp [refCredits, hbe]
            · unfold unrewEx
              rw [unrewEx_flip_ne _ _ _ (fun h => hu h.symm)]
        · left
          exact ⟨rfl, rfl⟩
      · left
        exact ⟨rfl, rfl⟩
  | rejectAll now uid =>
    simp only [step, reject_all]
    split
    · left
      exact ⟨rfl, rfl⟩
    · left
      exact ⟨rfl, rfl⟩
  | requestWd uid amount now newId =>
    simp only [step]
    unfold request_withdrawal
    split
    · left
      exact ⟨rfl, rfl⟩
    · split
      · left
        exact ⟨rfl, rfl⟩
      · dsimp only
        split
        · left
          exact ⟨rfl, rfl⟩
        · split
          · left
            exact ⟨rfl, rfl⟩
          · left
            exact ⟨rfl, rfl⟩
  | approveWd now wid =>
    simp only [step]
    unfold approve_withdrawal
    split
    · left
      exact ⟨rfl, rfl⟩
    · left
      exact ⟨rfl, rfl⟩
  | rejectWd now wid =>
    simp only [step]
    unfold reject_withdrawal
    split
    · left
      exact ⟨rfl, rfl⟩
    · left
      exact ⟨rfl, rfl⟩
  | claimChannel uid =>
    simp only [step]
    unfold claim_channel
    split
    · left
      exact ⟨rfl, rfl⟩
    · left
      exact ⟨rfl, rfl⟩

/-- One handler invocation: the referral credits it emits for `u`, plus
the surviving unrewarded-row indicator, never exceed the initial
unrewarded-row indicator. -/
theorem step_ref_ineq (op : Op) (db : DB) (u : ℕ) :
    Bot.refCredits u (Bot.step op db).events
      + (if Bot.unrewEx (Bot.step op db).db u then 1 else 0)
      ≤ (if Bot.unrewEx db u then 1 else 0) := by
  rcases step_ref_char op db u with ⟨h1, h2⟩ | ⟨h1, h2, h3⟩
  · rw [h1, h2]
    omega
  · rw [h1, h2, h3]
    simp

theorem refCredits_append (u : ℕ) (l1 l2 : List Ev) :
    Bot.refCredits u (l1 ++ l2) = Bot.refCredits u l1 + Bot.refCredits u l2 := by
  unfold refCredits
  exact List.countP_append _ _ _

/-- Along any run, the referral credits for `u` plus the surviving
unrewarded-row indicator never exceed the initial indicator. -/
theorem run_ref_ineq (ops : List Op) (db : DB) (u : ℕ) :
    Bot.refCredits u (Bot.run ops db).2
      + (if Bot.unrewEx (Bot.run ops db).1 u then 1 else 0)
      ≤ (if Bot.unrewEx db u then 1 else 0) := by
  induction ops generalizing db with
  | nil =>
    simp [run, refCredits]
  | cons op ops ih =>
    have h1 := step_ref_ineq op db u
    have h2 := ih (Bot.step op db).db
    simp only [run]
    rw [refCredits_append]
    omega

/-- C2: (i) across any sequence of handler invocations — in particular
any number of `ApproveSubmission` and `ApproveAll` calls — at most one
referral-credit event for a given referred user is ever emitted, so the
referrer's balance is credited the referral reward at most once; (ii) a
step emits that credit only when it flips the referral row's `rewarded`
flag false→true (the flag is true afterwards, so it flips at most once),
and only when the referred user's approved count was 0 before the step and
at least 1 after it — i.e. exactly when the user's first submission
becomes approved. -/
theorem c2_referral_reward_once :
    (∀ (u : ℕ) (ops : List Op) (db0 : DB), Bot.refCredits u (Bot.run ops db0).2 ≤ 1)
    ∧ ∀ (u r : ℕ) (amt : ℚ) (op : Op) (db : DB),
        (db.gmail.map Prod.fst).Nodup →
        Ev.refCredit u r amt ∈ (Bot.step op db).events →
        Bot.approvedCount db u = 0 ∧ 1 ≤ Bot.approvedCount (Bot.step op db).db u
          ∧ Bot.unrewEx db u = true ∧ Bot.unrewEx (Bot.step op db).db u = false := by
  constructor
  · intro u ops db0
    have h := run_ref_ineq ops db0 u
    by_cases h0 : Bot.unrewEx db0 u <;> simp [h0] at h <;> omega
  · intro u r amt op db hn hmem
    cases op with
    | createSub uid email now newId =>
      simp only [step] at hmem
      unfold create_submission at hmem
      split at hmem
      · simp at hmem
      · split at hmem
        · simp at hmem
        · simp at hmem
    | approveSub now gid =>
      simp only [step] at hmem ⊢
      unfold approve_submission at hmem ⊢
      split at hmem
      · simp at hmem
      · dsimp only at hmem ⊢
        split at hmem
        · split at hmem
          · rename_i fstk subv heq1 hfirst xopt rk ref heq2
            simp only [List.mem_cons, List.mem_singleton] at hmem
            rcases hmem with hmem | hmem
            · simp at hmem
            · rcases hmem with hmem | hmem
              · rw [Ev.refCredit.injEq] at hmem
                obtain ⟨hu, hrr, hamt⟩ := hmem
                rw [hu]
                -- the found pending row
                have hf := findWhere_mem heq1
                have hfk : fstk = gid := by
                  have h2 := hf.2
                  unfold subPendQ at h2
                  simp only [Bool.and_eq_true, beq_iff_eq] at h2
                  exact h2.1
                -- count bookkeeping for the conditional batch of one row
                have hcnt := countP_updWhere_eq db.gmail (Bot.subPendQ gid)
                  (fun s => { s with status := St.approved, reviewDate := some now })
                  (Bot.approvedQ subv.userId)
                  (fun p _ hq => by
                    unfold approvedQ at hq
                    unfold subPendQ
                    simp only [Bool.and_eq_true, decide_eq_true_eq] at hq
                    simp [hq.2])
                  (fun p hp hq => by
                    have hk : p.1 = gid := by
                      unfold subPendQ at hq
                      simp only [Bool.and_eq_true, beq_iff_eq] at hq
                      exact hq.1
                    have hpe : p = (fstk, subv) := keys_eq_of_nodup hn hp hf.1 (by rw [hk, hfk])
                    unfold approvedQ
                    rw [hpe]
                    simp)
                have hpos : 0 < db.gmail.countP (fun p => Bot.subPendQ gid p.1 p.2) :=
                  List.countP_pos_iff.mpr ⟨(fstk, subv), hf.1, hf.2⟩
                have hone : Bot.approvedCount
                    { db with
                        gmail := Bot.updWhere db.gmail (Bot.subPendQ gid)
                          (fun s => { s with status := St.approved, reviewDate := some now }) }
                      subv.userId = 1 := by
                  have := hfirst
                  simpa [approvedCount, beq_iff_eq] using this
                have hcnt' : Bot.approvedCount db subv.userId
                      + db.gmail.countP (fun p => Bot.subPendQ gid p.1 p.2) = 1 := by
                  unfold approvedCount at hone ⊢
                  rw [← hcnt]
                  exact hone
                refine ⟨by omega, ?_, ?_, ?_⟩
                · rw [if_pos hfirst]
                  unfold approvedCount at hone
                  exact hone.ge
                · unfold unrewEx
                  rw [heq2]
                  rfl
                · rw [if_pos hfirst]
                  show (Bot.findWhere (Bot.updWhere db.referrals (Bot.refUnrewQ subv.userId)
                    (fun r => { r with rewarded := true })) (Bot.refUnrewQ subv.userId)).isSome = false
                  rw [unrewEx_flip_self]
                  rfl
              · simp at hmem
          · simp at hmem
        · simp at hmem
    | rejectSub now gid =>
      simp only [step] at hmem
      unfold reject_submission at hmem
      split at hmem
      · simp at hmem
      · simp at hmem
    | approveAll now uid =>
      simp only [step, approve_all] at hmem ⊢
      split at hmem
      · simp at hmem
      · split at hmem
        · split at hmem
          · rename_i hne hfirst xopt rk ref heq2
            simp only [List.mem_cons, List.mem_singleton] at hmem
            rcases hmem with hmem | hmem
            · simp at hmem
            · rcases hmem with hmem | hmem
              · rw [Ev.refCredit.injEq] at hmem
                obtain ⟨hu, hrr, hamt⟩ := hmem
                rw [hu]
                have hzero : Bot.approvedCount db uid = 0 := by
                  have := hfirst
                  simpa [beq_iff_eq] using this
                have hcnt := countP_updWhere_eq db.gmail (Bot.userPendQ uid)
                  (fun s => { s with status := St.approved, reviewDate := some now })
                  (Bot.approvedQ uid)
                  (fun p _ hq => by
                    unfold approvedQ at hq
                    unfold userPendQ
                    simp only [Bool.and_eq_true, decide_eq_true_eq] at hq
                    simp [hq.2])
                  (fun p _ hq => by
                    unfold userPendQ at hq
                    unfold approvedQ
                    simp only [Bool.and_eq_true, beq_iff_eq, decide_eq_true_eq] at hq
                    simp [hq.1])
                have hpos : 0 < db.gmail.countP (fun p => Bot.userPendQ uid p.1 p.2) := by
                  rw [List.countP_eq_length_filter]
                  rcases hfilter : db.gmail.filter (fun p => Bot.userPendQ uid p.1 p.2) with _ | _
                  · rw [hfilter] at hne
                    exact absurd rfl hne
                  · rw [hfilter]
                    simp
                refine ⟨hzero, ?_, ?_, ?_⟩
                · rw [if_neg hne, if_pos hfirst]
                  show 1 ≤ (Bot.updWhere db.gmail (Bot.userPendQ uid)
                    (fun s => { s with status := St.approved, reviewDate := some now })).countP
                      (Bot.approvedQ uid)
                  rw [hcnt]
                  unfold approvedCount at hzero
                  omega
                · unfold unrewEx
                  rw [heq2]
                  rfl
                · rw [if_neg hne, if_pos hfirst]
                  show (Bot.findWhere (Bot.updWhere db.referrals (Bot.refUnrewQ uid)
                    (fun r => { r with rewarded := true })) (Bot.refUnrewQ uid)).isSome = false
                  rw [unrewEx_flip_self]
                  rfl
              · simp at hmem
          · simp at hmem
        · simp at hmem
    | rejectAll now uid =>
      simp only [step, reject_all] at hmem
      split at hmem
      · simp at hmem
      · simp at hmem
    | requestWd uid amount now newId =>
      simp only [step] at hmem
      unfold request_withdrawal at hmem
      split at hmem
      · simp at hmem
      · split at hmem
        · simp at hmem
        · dsimp only at hmem
          split at hmem
          · simp at hmem
          · split at hmem
            · simp at hmem
            · simp at hmem
    | approveWd now wid =>
      simp only [step] at hmem
      unfold approve_withdrawal at hmem
      split at hmem
      · simp at hmem
      · simp at hmem
    | rejectWd now wid =>
      simp only [step] at hmem
      unfold reject_withdrawal at hmem
      split at hmem
      · simp at hmem
      · simp at hmem
    | claimChannel uid =>
      simp only [step] at hmem
      unfold claim_channel at hmem
      split at hmem
      · simp at hmem
      · simp at hmem

/-- C2 (witness): on the concrete referred-user state, two repeated
approvals of submission 10 credit referrer 2 at most once, and the single
credit step is exactly user 1's first approval, flipping the rewarded
flag. -/
theorem c2_referral_reward_once_witness :
    Bot.refCredits 1 (Bot.run [Op.approveSub 3 10, Op.approveSub 4 10] Bot.refDb).2 ≤ 1
    ∧ (Bot.approvedCount Bot.refDb 1 = 0
      ∧ 1 ≤ Bot.approvedCount (Bot.step (Op.approveSub 3 10) Bot.refDb).db 1
      ∧ Bot.unrewEx Bot.refDb 1 = true
      ∧ Bot.unrewEx (Bot.step (Op.approveSub 3 10) Bot.refDb).db 1 = false) := by
  refine ⟨c2_referral_reward_once.1 1 _ _, ?_⟩
  exact c2_referral_reward_once.2 1 2 5 (Op.approveSub 3 10) refDb
    (by with_unfolding_all decide) (by with_unfolding_all decide)

/-! ### C4: balances never go negative -/

theorem calc_rate_nonneg (n : ℕ) : 0 ≤ Bot.calc_rate n := by
  unfold calc_rate
  split
  · norm_num
  · split <;> norm_num

/-- Every handler invocation preserves non-negativity of all stored
monetary values: credits add non-negative (rounded) stored rewards, the
only debit is guarded by `balance >= amount` in its own WHERE clause, and
newly inserted rows carry a tier reward (20/25/30) or a gross ≥ 100. -/
theorem step_moneyOk (op : Op) (db : DB) (h : Bot.moneyOk db) :
    Bot.moneyOk (Bot.step op db).db := by
  obtain ⟨hus, hgm, hwd, href⟩ := h
  cases op with
  | createSub uid email now newId =>
    simp only [step, create_submission]
    split
    · exact ⟨hus, hgm, hwd, href⟩
    · split
      · exact ⟨hus, hgm, hwd, href⟩
      · refine ⟨updWhere_forall (f := fun u : UserR => { u with totalGmail := u.totalGmail + 1 }) (P := fun u : UserR => 0 ≤ u.balance)
          hus (fun k a _ ha => by exact ha), ?_, hwd, href⟩
        intro p hp
        rcases List.mem_append.mp hp with hp | hp
        · exact hgm p hp
        · simp only [List.mem_singleton] at hp
          rw [hp]
          exact calc_rate_nonneg _
  | approveSub now gid =>
    simp only [step, approve_submission]
    split
    · exact ⟨hus, hgm, hwd, href⟩
    · rename_i fstk subv heq1
      have hsm := findWhere_mem heq1
      have hrew : 0 ≤ Bot.round_decimal subv.reward :=
        round_decimal_nonneg (hgm _ hsm.1)
      have hgm1 : ∀ p ∈ Bot.updWhere db.gmail (Bot.subPendQ gid)
          (fun s => { s with status := St.approved, reviewDate := some now }),
          0 ≤ p.2.reward :=
        updWhere_forall (f := fun s : SubR => { s with status := St.approved, reviewDate := some now }) (P := fun s : SubR => 0 ≤ s.reward)
          hgm (fun k a _ ha => by exact ha)
      have hus1 : ∀ p ∈ Bot.updWhere db.users (Bot.userKeyQ subv.userId)
          (fun u => { u with balance := u.balance + Bot.round_decimal subv.reward,
                             approvedGmail := u.approvedGmail + 1 }),
          0 ≤ p.2.balance :=
        updWhere_forall hus (fun k a _ ha => add_nonneg ha hrew)
      split
      · split
        · rename_i hfirst xopt rk ref heq2
          have hrm := findWhere_mem heq2
          have hrefrew : 0 ≤ Bot.round_decimal ref.reward :=
            round_decimal_nonneg (href _ hrm.1)
          refine ⟨?_, hgm1, hwd, updWhere_forall (f := fun r : RefR => { r with rewarded := true }) (P := fun r : RefR => 0 ≤ r.reward)
            href (fun k a _ ha => by exact ha)⟩
          exact updWhere_forall (f := fun u : UserR => { u with balance := u.balance + Bot.round_decimal ref.reward })
            (P := fun u : UserR => 0 ≤ u.balance) hus1 (fun k a _ ha => by exact add_nonneg ha hrefrew)
        · exact ⟨hus1, hgm1, hwd, href⟩
      · exact ⟨hus1, hgm1, hwd, href⟩
  | rejectSub now gid =>
    simp only [step, reject_submission]
    split
    · exact ⟨hus, hgm, hwd, href⟩
    · exact ⟨hus, updWhere_forall (f := fun s : SubR => { s with status := St.rejected, reviewDate := some now }) (P := fun s : SubR => 0 ≤ s.reward)
        hgm (fun k a _ ha => by exact ha), hwd, href⟩
  | approveAll now uid =>
    simp only [step, approve_all]
    split
    · exact ⟨hus, hgm, hwd, href⟩
    · have htot : 0 ≤ ((db.gmail.filter (fun p => Bot.userPendQ uid p.1 p.2)).map
          (fun p => Bot.round_decimal p.2.reward)).sum := by
        apply List.sum_nonneg
        intro x hx
        obtain ⟨p, hp, he⟩ := List.mem_map.mp hx
        rw [← he]
        exact round_decimal_nonneg (hgm p (List.mem_of_mem_filter hp))
      have hgm1 : ∀ p ∈ Bot.updWhere db.gmail (Bot.userPendQ uid)
          (fun s => { s with status := St.approved, reviewDate := some now }),
          0 ≤ p.2.reward :=
        updWhere_forall (f := fun s : SubR => { s with status := St.approved, reviewDate := some now }) (P := fun s : SubR => 0 ≤ s.reward)
          hgm (fun k a _ ha => by exact ha)
      have hus1 : ∀ p ∈ Bot.updWhere db.users (Bot.userKeyQ uid)
          (fun u => { u with
            balance := u.balance + ((db.gmail.filter (fun p => Bot.userPendQ uid p.1 p.2)).map
              (fun p => Bot.round_decimal p.2.reward)).sum,
            approvedGmail := u.approvedGmail
              + (db.gmail.filter (fun p => Bot.userPendQ uid p.1 p.2)).length }),
          0 ≤ p.2.balance :=
        updWhere_forall hus (fun k a _ ha => add_nonneg ha htot)
      split
      · split
        · rename_i hne hfirst xopt rk ref heq2
          have hrm := findWhere_mem heq2
          have hrefrew : 0 ≤ Bot.round_decimal ref.reward :=
            round_decimal_nonneg (href _ hrm.1)
          refine ⟨?_, hgm1, hwd, updWhere_forall (f := fun r : RefR => { r with rewarded := true }) (P := fun r : RefR => 0 ≤ r.reward)
            href (fun k a _ ha => by exact ha)⟩
          exact updWhere_forall (f := fun u : UserR => { u with balance := u.balance + Bot.round_decimal ref.reward })
            (P := fun u : UserR => 0 ≤ u.balance) hus1 (fun k a _ ha => by exact add_nonneg ha hrefrew)
        · exact ⟨hus1, hgm1, hwd, href⟩
      · exact ⟨hus1, hgm1, hwd, href⟩
  | rejectAll now uid =>
    simp only [step, reject_all]
    split
    · exact ⟨hus, hgm, hwd, href⟩
    · exact ⟨hus, updWhere_forall (f := fun s : SubR => { s with status := St.rejected, reviewDate := some now }) (P := fun s : SubR => 0 ≤ s.reward)
        hgm (fun k a _ ha => by exact ha), hwd, href⟩
  | requestWd uid amount now newId =>
    simp only [step, request_withdrawal]
    split
    · exact ⟨hus, hgm, hwd, href⟩
    · rename_i hge
      have hamt : (0 : ℚ) ≤ amount := by
        have := not_lt.mp hge
        linarith
      split
      · exact ⟨hus, hgm, hwd, href⟩
      · split
        · exact ⟨hus, hgm, hwd, href⟩
        · split
          · exact ⟨hus, hgm, hwd, href⟩
          · refine ⟨?_, hgm, ?_, href⟩
            · apply updWhere_forall (f := fun v : UserR => { v with balance := v.balance - amount }) (P := fun u : UserR => 0 ≤ u.balance) hus
              intro k a hq ha
              unfold balGeQ at hq
              simp only [Bool.and_eq_true, decide_eq_true_eq] at hq
              dsimp only
              linarith [hq.2]
            · intro p hp
              rcases List.mem_append.mp hp with hp | hp
              · exact hwd p hp
              · simp only [List.mem_singleton] at hp
                rw [hp]
                exact hamt
  | approveWd now wid =>
    simp only [step, approve_withdrawal]
    split
    · exact ⟨hus, hgm, hwd, href⟩
    · exact ⟨hus, hgm, updWhere_forall (f := fun v : WdR => { v with status := St.approved, processedDate := some now }) (P := fun w : WdR => 0 ≤ w.amount)
        hwd (fun k a _ ha => by exact ha), href⟩
  | rejectWd now wid =>
    simp only [step, reject_withdrawal]
    split
    · exact ⟨hus, hgm, hwd, href⟩
    · rename_i fstk wv heq
      have hwm := findWhere_mem heq
      have hamt : 0 ≤ Bot.round_decimal wv.amount :=
        round_decimal_nonneg (hwd _ hwm.1)
      refine ⟨?_, hgm, updWhere_forall (f := fun v : WdR => { v with status := St.rejected, processedDate := some now }) (P := fun w : WdR => 0 ≤ w.amount)
        hwd (fun k a _ ha => by exact ha), href⟩
      exact updWhere_forall (f := fun v : UserR => { v with balance := v.balance + Bot.round_decimal wv.amount })
        (P := fun u : UserR => 0 ≤ u.balance) hus (fun k a _ ha => by exact add_nonneg ha hamt)
  | claimChannel uid =>
    simp only [step, claim_channel]
    split
    · exact ⟨hus, hgm, hwd, href⟩
    · refine ⟨?_, hgm, hwd, href⟩
      apply updWhere_forall (f := fun u : UserR => { u with balance := u.balance + 1, channelClaimed := true }) (P := fun u : UserR => 0 ≤ u.balance) hus
      intro k a _ ha
      dsimp only
      linarith

theorem run_moneyOk (ops : List Op) (db : DB) (h : Bot.moneyOk db) :
    Bot.moneyOk (Bot.run ops db).1 := by
  induction ops generalizing db with
  | nil => exact h
  | cons op ops ih =>
    simp only [run]
    exact ih _ (step_moneyOk op db h)

/-- C4: starting from any state whose stored monetary values are
non-negative, after any prefix of any sequence of handler invocations
(create/approve/reject submission, batch approve/reject, request/approve/
reject withdrawal, channel-bonus claim — referral credits happen inside
the approve handlers) every user's balance is ≥ 0: each committed state of
a run satisfies the invariant. -/
theorem c4_balance_nonneg (ops : List Op) (db0 : DB) (h : Bot.moneyOk db0) :
    ∀ pre suf, ops = pre ++ suf → ∀ p ∈ (Bot.run pre db0).1.users, 0 ≤ p.2.balance := by
  intro pre _ _ p hp
  exact (run_moneyOk pre db0 h).1 p hp

/-- C4 (witness): a concrete run — approve, then a withdrawal request
that exceeds the balance, then the channel bonus — keeps both users'
balances non-negative at the inspected committed state. -/
theorem c4_balance_nonneg_witness :
    Bot.moneyOk Bot.refDb
    ∧ ∀ p ∈ (Bot.run [Op.approveSub 3 10, Op.requestWd 1 100 4 8, Op.claimChannel 2]
        Bot.refDb).1.users, 0 ≤ p.2.balance := by
  have hm : Bot.moneyOk Bot.refDb := by
    unfold moneyOk
    with_unfolding_all decide
  exact ⟨hm, c4_balance_nonneg _ Bot.refDb hm
    [Op.approveSub 3 10, Op.requestWd 1 100 4 8, Op.claimChannel 2] []
    (List.append_nil _).symm⟩

/-! ### C9: notification ordering around the commit -/

/-- C9 (counterexample): the claim that *every* notification is dispatched
only after the commit is false — on the first-approval path the referrer
notification (bot.py:1262) precedes `conn.commit()` (bot.py:1268). -/
theorem c9_notify_before_commit_cex :
    (Bot.step (Op.approveSub 3 10) Bot.refDb).hacts
      = [HAct.notifyReferrer 2, HAct.commit, HAct.notifyUser 1, HAct.commit]
    ∧ Bot.noneBeforeCommit Bot.isNotify (Bot.step (Op.approveSub 3 10) Bot.refDb).hacts
        = false := by
  constructor
  · with_unfolding_all decide
  · with_unfolding_all decide

/-- C9 (amended): in every handler, the notifications to the acted-on
user and to the admin are dispatched only after the first commit of the
handler; only the referral-reward notification to the referrer (on the
first-approval paths of approve and approve-all) is dispatched before the
commit.  Notification failures are swallowed inside `notify_user`
(bot.py:369-382 catches every exception and returns False), which is why
the dispatches are mere trace actions here: the committed database of
every handler is a function of the operation and prior state only, never
of delivery success. -/
theorem c9_user_notify_after_commit (op : Op) (db : DB) :
    Bot.noneBeforeCommit Bot.isUserNotify (Bot.step op db).hacts = true := by
  cases op with
  | createSub uid email now newId =>
    simp only [step]
    unfold create_submission
    split
    · rfl
    · split
      · rfl
      · rfl
  | approveSub now gid =>
    simp only [step]
    unfold approve_submission
    split
    · rfl
    · dsimp only
      split
      · split
        · rfl
        · rfl
      · rfl
  | rejectSub now gid =>
    simp only [step]
    unfold reject_submission
    split
    · rfl
    · rfl
  | approveAll now uid =>
    simp only [step, approve_all]
    split
    · rfl
    · split
      · split
        · rfl
        · rfl
      · rfl
  | rejectAll now uid =>
    simp only [step, reject_all]
    split
    · rfl
    · rfl
  | requestWd uid amount now newId =>
    simp only [step]
    unfold request_withdrawal
    split
    · rfl
    · split
      · rfl
      · dsimp only
        split
        · rfl
        · split
          · rfl
          · rfl
  | approveWd now wid =>
    simp only [step]
    unfold approve_withdrawal
    split
    · rfl
    · rfl
  | rejectWd now wid =>
    simp only [step]
    unfold reject_withdrawal
    split
    · rfl
    · rfl
  | claimChannel uid =>
    simp only [step]
    unfold claim_channel
    split
    · rfl
    · rfl

/-! ### C6: duplicate detection against stored alias variants -/

/-- C6 (code bug): `"john@gmail.com"` and the stored `"j.ohn@gmail.com"`
normalize identically, yet `check_duplicate_email` — which normalizes only
the probe and compares it with `LOWER(TRIM(email))` of the stored column —
finds nothing, so the submission is accepted and a second row with the
same normalized email is inserted.  This contradicts the function's own
docstrings ("Check if email exists (normalized)", "Normalize email for
duplicate detection"): normalization is applied to one side of the
comparison only. -/
theorem c6_duplicate_check_misses_stored_alias :
    Bot.normalize_email Bot.emailPlain = Bot.normalize_email Bot.emailDotted
    ∧ Bot.check_duplicate_email Bot.dupDb.gmail Bot.emailPlain = none
    ∧ (Bot.create_submission 2 Bot.emailPlain 5 2 Bot.dupDb).outcome = Outcome.ok
    ∧ (Bot.create_submission 2 Bot.emailPlain 5 2 Bot.dupDb).db.gmail.length = 2 := by
  refine ⟨?_, ?_, ?_, ?_⟩ <;> with_unfolding_all decide

/-! ### C10: what the duplicate report reveals -/

/-- C10 (counterexample): two executions differing only in which user
holds the pre-existing duplicate (the caller vs. user 2) produce
different reports — the report is not identical, it reveals ownership
(and it embeds the stored row's status). -/
theorem c10_duplicate_reply_reveals_owner_cex :
    Bot.duplicate_reply 1 1 St.pending ≠ Bot.duplicate_reply 1 2 St.pending := by
  decide

/-- C10 (amended): the duplicate report depends on whether the caller
owns the existing submission and on that submission's status, but not on
*which* other user holds it: two executions that differ only in which
other user (≠ caller) holds the duplicate produce identical reports. -/
theorem c10_duplicate_reply_same_for_other_owners (c u₁ u₂ : ℕ) (s : St)
    (h₁ : u₁ ≠ c) (h₂ : u₂ ≠ c) :
    Bot.duplicate_reply c u₁ s = Bot.duplicate_reply c u₂ s := by
  unfold duplicate_reply
  rw [if_neg h₁, if_neg h₂]

/-- C10 (witness): owners 2 and 3 (both ≠ caller 1) get the same report. -/
theorem c10_duplicate_reply_same_for_other_owners_witness :
    Bot.duplicate_reply 1 2 St.pending = Bot.duplicate_reply 1 3 St.pending :=
  c10_duplicate_reply_same_for_other_owners 1 2 3 St.pending (by decide) (by decide)

end Bot
